import Mathlib

set_option linter.dupNamespace false

/-!
Verification of the FormalLanguages toolkit against its specification.

The development shallowly embeds the two subsystems the specification covers:

* the CFG pipeline of `src/Formal Languages/src/Main.cpp` and
  `src/CFGParser.cpp` (data model, validator, JSON codec, text parser,
  complement, obfuscation sampling loop, fuzz equivalence), and
* the LALR-style parser-generator core of
  `src/Parser Generator/src/ParserGenerator.cpp` (grammar model, production
  priorities, nullable / FIRST / FOLLOW fixed points, action-table conflict
  resolution).

C++ `std::set` / `std::map` values become `Finset`s or association lists,
`char32_t` becomes `Char`, fallible code returns `Except`, and the
iterate-until-unchanged loops become fuel-bounded iterations whose fuel is
large enough for the chain to stabilise (proved below).
-/

namespace CFG

/-- `CFG::Symbol::Type` from `CFG.h`: a symbol is a terminal or a nonterminal. -/
inductive SymbolType where
  | terminal : SymbolType
  | nonterminal : SymbolType
deriving DecidableEq

/-- `CFG::Symbol`: a tagged code point. -/
structure Symbol where
  type : SymbolType
  ch : Char
deriving DecidableEq

/-- `CFG::Production`: a LHS nonterminal and its replacement string. -/
structure Production where
  nonterminal : Char
  replacement : List Symbol
deriving DecidableEq

/-- Modelled from the spec: the `CFG::CFG` record of `CFG.h` (not under
`src/`): alphabet, nonterminal set, start symbol and ordered production list.
The start symbol defaults to code point 0, matching the unset-sentinel
comparison `result.startSymbol == char32_t(0)` in `CFGParser.cpp`. -/
structure CFG where
  alphabet : Finset Char
  nonterminals : Finset Char
  startSymbol : Char
  productions : List Production
deriving DecidableEq

/-- Helper for `CFG::terminal` in `CFG.h`. -/
def terminal (ch : Char) : Symbol := ⟨SymbolType.terminal, ch⟩

/-- Helper for `CFG::nonterminal` in `CFG.h`. -/
def nonterminalSym (ch : Char) : Symbol := ⟨SymbolType.nonterminal, ch⟩

/-- The per-symbol check of `validate` in `Main.cpp`: terminals must be in the
alphabet, nonterminal symbols must be in the declared nonterminal set. -/
def symbolOk (cfg : CFG) (s : Symbol) : Bool :=
  match s.type with
  | SymbolType.terminal => decide (s.ch ∈ cfg.alphabet)
  | SymbolType.nonterminal => decide (s.ch ∈ cfg.nonterminals)

/-- The set `producers` accumulated by `validate` in `Main.cpp`: every LHS
nonterminal of a production. -/
def producers (cfg : CFG) : Finset Char :=
  (cfg.productions.map Production.nonterminal).toFinset

/-- `validate` from `Main.cpp`, with `abort()` rendered as `false`: all
symbols of all productions must check out, and the LHS set must equal the
declared nonterminal set. -/
def validate (cfg : CFG) : Bool :=
  cfg.productions.all (fun prod => prod.replacement.all (symbolOk cfg)) &&
    decide (producers cfg = cfg.nonterminals)

/-! ### The JSON codec

The writer lives in `Main.cpp` (`jsonRules` / `toJSON`), the reader in
`CFGParser.cpp` (`parseJSONRule` / `parseCFG(JSON, alphabet)`).  The JSON
values are embedded structurally: each `data` field holds exactly one code
point, and `fromUTF8 ∘ toUTF8` is the identity on single code points, so the
UTF-8 codec is elided. -/

/-- One symbol object `{"type": "T"|"NT", "data": c}`. -/
structure JSymbol where
  type : String
  data : Char
deriving DecidableEq

/-- One rule object `{"name": n, "production": [symbols]}`. -/
structure JRule where
  name : Char
  production : List JSymbol
deriving DecidableEq

/-- The whole document `{"start": s, "rules": [rules]}`. -/
structure JCFG where
  start : Char
  rules : List JRule
deriving DecidableEq

/-- The symbol objects built inside `jsonRules` in `Main.cpp`:
`{"type": s.type == TERMINAL ? "T" : "NT", "data": s.ch}`. -/
def jsonSymbol (s : Symbol) : JSymbol :=
  ⟨if s.type = SymbolType.terminal then "T" else "NT", s.ch⟩

/-- The rule objects built inside `jsonRules` in `Main.cpp`. -/
def jsonRule (prod : Production) : JRule :=
  ⟨prod.nonterminal, prod.replacement.map jsonSymbol⟩

/-- `jsonRules` from `Main.cpp`: one rule object per production, in order. -/
def jsonRules (cfg : CFG) : List JRule :=
  cfg.productions.map jsonRule

/-- `toJSON` from `Main.cpp`. -/
def toJSON (cfg : CFG) : JCFG :=
  ⟨cfg.startSymbol, jsonRules cfg⟩

/-- The symbol loop of `parseJSONRule` in `CFGParser.cpp`: builds the
replacement list, threading the nonterminal set (RHS nonterminals are
inserted as they are encountered); terminals outside the alphabet and unknown
type tags raise `parseError`. -/
def parseJSONSymbols (alphabet : Finset Char) :
    List JSymbol → Finset Char → Except String (List Symbol × Finset Char)
  | [], nts => Except.ok ([], nts)
  | s :: rest, nts =>
    if s.type = "T" then
      if s.data ∈ alphabet then
        match parseJSONSymbols alphabet rest nts with
        | Except.ok (syms, nts') => Except.ok (⟨SymbolType.terminal, s.data⟩ :: syms, nts')
        | Except.error e => Except.error e
      else Except.error ("Illegal terminal: " ++ String.mk [s.data])
    else if s.type = "NT" then
      match parseJSONSymbols alphabet rest (insert s.data nts) with
      | Except.ok (syms, nts') => Except.ok (⟨SymbolType.nonterminal, s.data⟩ :: syms, nts')
      | Except.error e => Except.error e
    else Except.error ("Unknown type: " ++ s.type)

/-- `parseJSONRule` from `CFGParser.cpp`: decode one rule into the CFG being
built, adding the LHS name and all RHS nonterminals to the nonterminal set
and appending the production. -/
def parseJSONRule (alphabet : Finset Char) (result : CFG) (rule : JRule) :
    Except String CFG :=
  match parseJSONSymbols alphabet rule.production result.nonterminals with
  | Except.ok (syms, nts') =>
      Except.ok { result with
        nonterminals := insert rule.name nts',
        productions := result.productions ++ [⟨rule.name, syms⟩] }
  | Except.error e => Except.error e

/-- `parseCFG(JSON, alphabet)` from `CFGParser.cpp`: start symbol and alphabet
are copied, then each rule is processed in order. -/
def parseCFGJson (data : JCFG) (alphabet : Finset Char) : Except String CFG :=
  data.rules.foldlM (parseJSONRule alphabet)
    { alphabet := alphabet, nonterminals := ∅,
      startSymbol := data.start, productions := [] }

end CFG

namespace Automata

/-- Modelled from the spec: one DFA state (from `Automaton.h`, not under
`src/`), carrying an identity and its accepting flag. -/
structure DFAState where
  id : Nat
  isAccepting : Bool
deriving DecidableEq

/-- Modelled from the spec: the DFA record of `Automaton.h` (not under
`src/`): state set, alphabet, transition table, start state. -/
structure DFA where
  states : List DFAState
  alphabet : Finset Char
  transitions : List (Nat × Char × Nat)
  start : Nat
deriving DecidableEq

/-- `complementOf` from `Main.cpp`: flip the accepting flag on every state;
everything else is carried over unchanged. -/
def complementOf (dfa : DFA) : DFA :=
  { dfa with states := dfa.states.map (fun st => { st with isAccepting := !st.isAccepting }) }

end Automata

namespace PG

/-- `ProductionRule` from `ParserGenerator.cpp`: the term sequence plus the
semantic-action text. -/
structure ProductionRule where
  terms : List String
  action : String
deriving DecidableEq

/-- `Grammar` from `ParserGenerator.cpp`.  The `std::map` from nonterminal
names to rule lists becomes an association list (the map's sorted key order is
never relied on below); the remaining emission metadata is carried verbatim. -/
structure Grammar where
  grammar : List (String × List ProductionRule)
  priorities : List String
  typeToField : List (String × String)
  nonterminalTypes : List (String × String)
  headerExtras : List String
  verbose : Bool
  name : String
deriving DecidableEq

/-- `kStartSymbol` from `ParserGenerator.cpp`. -/
def kStartSymbol : String := "_parserInternalStart"

/-- `Production` from `ParserGenerator.cpp`: an LR(0) item (nonterminal, term
sequence, dot index). -/
structure Production where
  nonterminal : String
  items : List String
  index : Nat
deriving DecidableEq

/-- `isNonterminal` from `ParserGenerator.cpp`: `g.grammar.count(symbol)`. -/
def isNonterminal (g : Grammar) (symbol : String) : Bool :=
  g.grammar.any (fun e => e.1 = symbol)

/-- The `std::find` index lookup inside `priorityOf`: the position of the
first occurrence of `s` in `l`, or `none` past the end. -/
def findIndex (l : List String) (s : String) : Option Nat :=
  match l with
  | [] => none
  | x :: rest => if x = s then some 0 else (findIndex rest s).map (· + 1)

/-- The scan of `priorityOf` over the production's items: terminals are looked
up in the priority list; unranked terminals and nonterminals are skipped. -/
def priorityAux (g : Grammar) : List String → Nat
  | [] => g.priorities.length
  | symbol :: rest =>
    if isNonterminal g symbol then priorityAux g rest
    else
      match findIndex g.priorities symbol with
      | some i => i
      | none => priorityAux g rest

/-- `priorityOf` from `ParserGenerator.cpp`: the priority associated with the
leftmost ranked terminal, or `priorities.size()` if there is none. -/
def priorityOf (g : Grammar) (production : Production) : Nat :=
  priorityAux g production.items

/-- `reduceFunctionNameFor` from `ParserGenerator.cpp`. -/
def reduceFunctionNameFor (p : Production) : String :=
  p.items.foldl (fun acc item => acc ++ "_" ++ item)
    ("reduce_" ++ p.nonterminal ++ "_from")

/-- `reduceThunkNameFor` from `ParserGenerator.cpp`. -/
def reduceThunkNameFor (p : Production) : String :=
  reduceFunctionNameFor p ++ "__thunk"

/-- `reduceActionFor` from `ParserGenerator.cpp`: the emitted reduce command
text. -/
def reduceActionFor (p : Production) : String :=
  "new ReduceActionN<" ++ toString p.items.length ++ ">(Nonterminal::"
    ++ p.nonterminal ++ ", " ++ reduceThunkNameFor p ++ ")"

/-- The shift command text built in `actionTable`:
`"new ShiftAction{" + to_string(target) + "}"`. -/
def shiftCommandFor (target : Nat) : String :=
  "new ShiftAction\x7b" ++ toString target ++ "\x7d"

/-- One slot of the action table under construction: the command text
(`actions[symbol]`) together with the owning item (`owners[symbol]`).  The two
C++ maps are always updated in lockstep, so they are fused here. -/
def Slots : Type := String → Option (String × Production)

/-- One iteration of the shift-filling loop of `actionTable`: look up the
symbol after the dot, build the shift command, and claim the slot iff it is
unclaimed, already holds the identical command, or the current owner's
priority number is `>=` the shift item's. -/
def fillShiftStep (g : Grammar) (succIndex : String → Nat) (slots : Slots)
    (s : Production) : Slots :=
  match s.items.get? s.index with
  | none => slots
  | some symbol =>
    let command := shiftCommandFor (succIndex symbol)
    match slots symbol with
    | none => fun x => if x = symbol then some (command, s) else slots x
    | some (a, owner) =>
        if a = command ∨ priorityOf g owner ≥ priorityOf g s then
          fun x => if x = symbol then some (command, s) else slots x
        else slots

/-- The whole shift-filling loop: fold the step over the incomplete items of
the state (`shiftsIn(curr)`), starting from the slots already claimed by
reduce and halt entries. -/
def fillShifts (g : Grammar) (succIndex : String → Nat)
    (shifts : List Production) (slots : Slots) : Slots :=
  shifts.foldl (fillShiftStep g succIndex) slots

/-- The claim's characterisation of a production's priority, from the spec's
words: the position in `priorities` of the leftmost terminal of the RHS that
appears in `priorities`, or `|priorities|` when no RHS terminal appears there
(unranked terminals are skipped, not treated as a match). -/
def specPriorityOf (g : Grammar) (p : Production) : Nat :=
  match p.items.find? (fun s => !(isNonterminal g s) && decide (s ∈ g.priorities)) with
  | some t => g.priorities.indexOf t
  | none => g.priorities.length

lemma findIndex_eq_none_iff (l : List String) (s : String) :
    findIndex l s = none ↔ s ∉ l := by
  induction l with
  | nil => simp [findIndex]
  | cons x rest ih =>
    by_cases hx : x = s
    · simp [findIndex, hx]
    · simp [findIndex, hx, ih, Option.map_eq_none, Ne.symm hx]

lemma findIndex_eq_indexOf (l : List String) (s : String) :
    s ∈ l → findIndex l s = some (l.indexOf s) := by
  induction l with
  | nil => intro h; simp at h
  | cons x rest ih =>
    intro h
    by_cases hx : x = s
    · subst hx
      simp [findIndex, List.indexOf_cons_self]
    · have hmem : s ∈ rest := by
        rcases List.mem_cons.mp h with h | h
        · exact absurd h.symm hx
        · exact h
      simp [findIndex, hx, ih hmem, List.indexOf_cons_ne _ (Ne.symm hx)]

end PG

namespace PG

lemma priorityAux_spec (g : Grammar) (l : List String) :
    priorityAux g l =
      match l.find? (fun s => !(isNonterminal g s) && decide (s ∈ g.priorities)) with
      | some t => g.priorities.indexOf t
      | none => g.priorities.length := by
  induction l with
  | nil => simp [priorityAux]
  | cons x rest ih =>
    by_cases hNT : isNonterminal g x
    · rw [List.find?_cons_of_neg
        (p := fun s => !(isNonterminal g s) && decide (s ∈ g.priorities)) rest
        (by simp [hNT])]
      simpa [priorityAux, hNT] using ih
    · by_cases hmem : x ∈ g.priorities
      · rw [List.find?_cons_of_pos
          (p := fun s => !(isNonterminal g s) && decide (s ∈ g.priorities)) rest
          (by simp [hNT, hmem])]
        simp [priorityAux, hNT, findIndex_eq_indexOf _ _ hmem]
      · rw [List.find?_cons_of_neg
          (p := fun s => !(isNonterminal g s) && decide (s ∈ g.priorities)) rest
          (by simp [hNT, hmem])]
        have hnone : findIndex g.priorities x = none :=
          (findIndex_eq_none_iff _ _).mpr hmem
        simpa [priorityAux, hNT, hnone] using ih

end PG

/-- C2: for every grammar `g` and production `p`, `priorityOf g p` equals the
index in `g.priorities` of the leftmost terminal of `p`'s RHS that appears in
`g.priorities`, and equals `|g.priorities|` when no RHS terminal appears
there; terminals not listed in `priorities` are skipped, not treated as a
match (see `PG.specPriorityOf`). -/
theorem priorityOf_eq_specPriorityOf (g : PG.Grammar) (p : PG.Production) :
    PG.priorityOf g p = PG.specPriorityOf g p := by
  unfold PG.priorityOf PG.specPriorityOf
  exact PG.priorityAux_spec g p.items

/-- C9: `complementOf` returns a DFA in which every state's accepting flag is
the negation of the corresponding input flag, while the state identities (in
order), the alphabet, the transitions and the start state are unchanged. -/
theorem complementOf_spec (dfa : Automata.DFA) :
    (Automata.complementOf dfa).states.map Automata.DFAState.id
        = dfa.states.map Automata.DFAState.id
  ∧ (Automata.complementOf dfa).states.map Automata.DFAState.isAccepting
        = dfa.states.map (fun st => !st.isAccepting)
  ∧ (Automata.complementOf dfa).alphabet = dfa.alphabet
  ∧ (Automata.complementOf dfa).transitions = dfa.transitions
  ∧ (Automata.complementOf dfa).start = dfa.start := by
  refine ⟨?_, ?_, rfl, rfl, rfl⟩ <;>
    simp [Automata.complementOf, List.map_map, Function.comp]

namespace PG

lemma fillShiftStep_apply (g : Grammar) (succIndex : String → Nat)
    (slots : Slots) (s : Production) (symbol : String)
    (hsym : s.items.get? s.index = some symbol) :
    fillShiftStep g succIndex slots s symbol =
      match slots symbol with
      | none => some (shiftCommandFor (succIndex symbol), s)
      | some (a, owner) =>
          if a = shiftCommandFor (succIndex symbol) ∨ priorityOf g owner ≥ priorityOf g s
          then some (shiftCommandFor (succIndex symbol), s)
          else some (a, owner) := by
  unfold fillShiftStep
  rw [hsym]
  rcases hslot : slots symbol with _ | ⟨a, owner⟩
  · simp [hslot]
  · by_cases hcond : a = shiftCommandFor (succIndex symbol)
        ∨ priorityOf g owner ≥ priorityOf g s
    · simp [hslot, hcond]
    · simp [hslot, hcond]

lemma fillShiftStep_apply_none (g : Grammar) (succIndex : String → Nat)
    (slots : Slots) (s : Production) (symbol : String)
    (hsym : s.items.get? s.index = some symbol) (hslot : slots symbol = none) :
    fillShiftStep g succIndex slots s symbol
      = some (shiftCommandFor (succIndex symbol), s) := by
  rw [fillShiftStep_apply g succIndex slots s symbol hsym, hslot]

lemma fillShiftStep_apply_some (g : Grammar) (succIndex : String → Nat)
    (slots : Slots) (s : Production) (symbol : String) (a : String) (owner : Production)
    (hsym : s.items.get? s.index = some symbol)
    (hslot : slots symbol = some (a, owner)) :
    fillShiftStep g succIndex slots s symbol =
      if a = shiftCommandFor (succIndex symbol) ∨ priorityOf g owner ≥ priorityOf g s
      then some (shiftCommandFor (succIndex symbol), s)
      else some (a, owner) := by
  rw [fillShiftStep_apply g succIndex slots s symbol hsym, hslot]

lemma fillShiftStep_other (g : Grammar) (succIndex : String → Nat)
    (slots : Slots) (s : Production) (x : String)
    (hx : s.items.get? s.index = none ∨ ∀ symbol, s.items.get? s.index = some symbol → x ≠ symbol) :
    fillShiftStep g succIndex slots s x = slots x := by
  unfold fillShiftStep
  rcases hsym : s.items.get? s.index with _ | symbol
  · rfl
  · rcases hx with hx | hx
    · rw [hsym] at hx; cases hx
    · have hne : x ≠ symbol := hx symbol hsym
      rcases hslot : slots symbol with _ | ⟨a, owner⟩
      · simp [hslot, hne]
      · by_cases hcond : a = shiftCommandFor (succIndex symbol)
            ∨ priorityOf g owner ≥ priorityOf g s
        · simp [hslot, hcond, hne]
        · simp [hslot, hcond]

end PG

/-- C1: in the shift-filling loop of `actionTable`, an incomplete item `s`
with dot before `symbol` claims the slot with `Shift(successorIndex(symbol))`
exactly when the slot is unclaimed, or the existing command is the identical
shift command, or the existing owner\'s priority number is `>=` the shift
item\'s; consequently a shift whose production priority is `<=` the current
owner\'s (a terminal declared earlier in `priorities`, by C2) overwrites a
reduce entry in the same slot, and otherwise the slot is left unchanged. -/
theorem fillShiftStep_spec (g : PG.Grammar) (succIndex : String → Nat)
    (slots : PG.Slots) (s : PG.Production) (symbol : String)
    (hsym : s.items.get? s.index = some symbol) :
    (PG.fillShiftStep g succIndex slots s symbol
        = some (PG.shiftCommandFor (succIndex symbol), s)
      ↔ slots symbol = none
        ∨ (∃ ow, slots symbol = some (PG.shiftCommandFor (succIndex symbol), ow))
        ∨ (∃ a ow, slots symbol = some (a, ow) ∧ PG.priorityOf g ow ≥ PG.priorityOf g s))
  ∧ (∀ a ow, slots symbol = some (a, ow) → PG.priorityOf g s ≤ PG.priorityOf g ow →
      PG.fillShiftStep g succIndex slots s symbol
        = some (PG.shiftCommandFor (succIndex symbol), s))
  ∧ (¬(slots symbol = none
        ∨ (∃ ow, slots symbol = some (PG.shiftCommandFor (succIndex symbol), ow))
        ∨ (∃ a ow, slots symbol = some (a, ow) ∧ PG.priorityOf g ow ≥ PG.priorityOf g s)) →
      PG.fillShiftStep g succIndex slots s symbol = slots symbol) := by
  rcases hslot : slots symbol with _ | ⟨a, owner⟩
  · have happ := PG.fillShiftStep_apply_none g succIndex slots s symbol hsym hslot
    refine ⟨?_, ?_, ?_⟩
    · exact ⟨fun _ => Or.inl rfl, fun _ => happ⟩
    · intro a ow h
      exact Option.noConfusion h
    · intro hnot
      exact absurd (Or.inl rfl) hnot
  · have happ := PG.fillShiftStep_apply_some g succIndex slots s symbol a owner hsym hslot
    by_cases hcond : a = PG.shiftCommandFor (succIndex symbol)
        ∨ PG.priorityOf g owner ≥ PG.priorityOf g s
    · rw [if_pos hcond] at happ
      refine ⟨?_, ?_, ?_⟩
      · rw [happ]
        refine ⟨fun _ => ?_, fun _ => rfl⟩
        rcases hcond with hc | hc
        · exact Or.inr (Or.inl ⟨owner, by rw [hc]⟩)
        · exact Or.inr (Or.inr ⟨a, owner, rfl, hc⟩)
      · intro a2 ow h2 hle
        exact happ
      · intro hnot
        rcases hcond with hc | hc
        · exact absurd (Or.inr (Or.inl ⟨owner, by rw [hc]⟩)) hnot
        · exact absurd (Or.inr (Or.inr ⟨a, owner, rfl, hc⟩)) hnot
    · rw [if_neg hcond] at happ
      push_neg at hcond
      obtain ⟨hca, hcp⟩ := hcond
      refine ⟨?_, ?_, ?_⟩
      · rw [happ]
        constructor
        · intro h
          exact absurd (congrArg Prod.fst (Option.some.inj h)) hca
        · intro h
          rcases h with h | ⟨ow, h⟩ | ⟨a2, ow, h, hge⟩
          · exact Option.noConfusion h
          · exact absurd (congrArg Prod.fst (Option.some.inj h)) hca
          · have h1 := congrArg Prod.fst (Option.some.inj h)
            have h2 := congrArg Prod.snd (Option.some.inj h)
            simp only at h1 h2
            subst h1 h2
            exact absurd hge (by omega)
      · intro a2 ow h2 hle
        have h1 := congrArg Prod.fst (Option.some.inj h2)
        have how := congrArg Prod.snd (Option.some.inj h2)
        simp only at h1 how
        subst h1 how
        exact absurd hle (by omega)
      · intro hnot
        exact happ

namespace PG

/-- Example grammar for the C1 witness: `E → E + E | E * E` with priorities
`["*", "+"]` (`*` binds tighter). -/
def exGrammar : Grammar :=
  { grammar := [("E", [⟨["E", "+", "E"], ""⟩, ⟨["E", "*", "E"], ""⟩])],
    priorities := ["*", "+"],
    typeToField := [], nonterminalTypes := [], headerExtras := [],
    verbose := false, name := "Ex" }

/-- Witness shift item: `E → E . * E`. -/
def exShiftItem : Production := ⟨"E", ["E", "*", "E"], 1⟩

/-- Witness reduce owner: the completed item `E → E + E .`. -/
def exReduceItem : Production := ⟨"E", ["E", "+", "E"], 3⟩

/-- Witness slot state: the `*` slot is already claimed by the reduce item. -/
def exSlots : Slots :=
  fun x => if x = "*" then some (reduceActionFor exReduceItem, exReduceItem) else none

end PG

theorem fillShiftStep_spec_witness :
    PG.exShiftItem.items.get? PG.exShiftItem.index = some "*"
  ∧ PG.exSlots "*" = some (PG.reduceActionFor PG.exReduceItem, PG.exReduceItem)
  ∧ PG.priorityOf PG.exGrammar PG.exShiftItem ≤ PG.priorityOf PG.exGrammar PG.exReduceItem
  ∧ PG.fillShiftStep PG.exGrammar (fun _ => 7) PG.exSlots PG.exShiftItem "*"
      = some (PG.shiftCommandFor 7, PG.exShiftItem) :=
  ⟨rfl, rfl, by decide,
   (fillShiftStep_spec PG.exGrammar (fun _ => 7) PG.exSlots PG.exShiftItem "*" rfl).2.1
     (PG.reduceActionFor PG.exReduceItem) PG.exReduceItem rfl (by decide)⟩

namespace CFG

/-- `kNumStrings` from `Main.cpp`. -/
def kNumStrings : Nat := 10

/-- The size-escalation sampling loop of `obfuscate` in `Main.cpp`
(`for (size_t len = 5; ; len++)`): sample at the current size, insert the
string if one was produced, and break once `kNumStrings` distinct strings
have been collected.  The C++ loop has no guard bound and no failure exit, so
the embedding carries an explicit iteration budget: `none` means the budget
ran out with the loop still running. -/
def sampleLoop (gen : Nat → Option String) :
    Nat → Nat → Finset String → Option (Finset String)
  | 0, _, _ => none
  | fuel + 1, len, singletons =>
    match gen len with
    | some str =>
        let singletons' := insert str singletons
        if singletons'.card = kNumStrings then some singletons'
        else sampleLoop gen fuel (len + 1) singletons'
    | none => sampleLoop gen fuel (len + 1) singletons

/-- The sampling phase of `obfuscate`: run the loop from size 5 with an empty
collection. -/
def obfuscateSample (gen : Nat → Option String) (fuel : Nat) :
    Option (Finset String) :=
  sampleLoop gen fuel 5 ∅

lemma sampleLoop_none_of_subset (gen : Nat → Option String) (D : Finset String)
    (hD : ∀ len s, gen len = some s → s ∈ D) (hcard : D.card < kNumStrings) :
    ∀ fuel len singletons, singletons ⊆ D →
      sampleLoop gen fuel len singletons = none := by
  intro fuel
  induction fuel with
  | zero => intro len singletons _; rfl
  | succ n ih =>
    intro len singletons hsub
    unfold sampleLoop
    rcases hgen : gen len with _ | str
    · exact ih (len + 1) singletons hsub
    · have hstr : str ∈ D := hD len str hgen
      have hsub' : insert str singletons ⊆ D := Finset.insert_subset hstr hsub
      have hlt : (insert str singletons).card < kNumStrings :=
        lt_of_le_of_lt (Finset.card_le_card hsub') hcard
      simp only [Nat.ne_of_lt hlt, if_false]
      exact ih (len + 1) (insert str singletons) hsub'

lemma sampleLoop_card_of_some (gen : Nat → Option String) :
    ∀ fuel len singletons result,
      sampleLoop gen fuel len singletons = some result →
      result.card = kNumStrings := by
  intro fuel
  induction fuel with
  | zero => intro len singletons result h; exact Option.noConfusion h
  | succ n ih =>
    intro len singletons result h
    unfold sampleLoop at h
    rcases hgen : gen len with _ | str
    · rw [hgen] at h
      exact ih (len + 1) singletons result h
    · rw [hgen] at h
      simp only at h
      by_cases hfull : (insert str singletons).card = kNumStrings
      · rw [if_pos hfull] at h
        rw [← Option.some.inj h]
        exact hfull
      · rw [if_neg hfull] at h
        exact ih (len + 1) (insert str singletons) result h

end CFG

/-- C5 counterexample: the claim that the sampling loop always terminates
(collecting ten distinct strings or stopping at a guard bound) is false: for
the generator that can only ever produce the single string "a" — e.g. a CFG
whose language is exactly `{"a"}` — the loop is still running after every
finite number of iterations; the code has no guard bound. -/
theorem obfuscateSample_diverges :
    ¬ ∃ fuel result,
        CFG.obfuscateSample (fun _ => some "a") fuel = some result := by
  rintro ⟨fuel, result, h⟩
  have hnone : CFG.obfuscateSample (fun _ => some "a") fuel = none :=
    CFG.sampleLoop_none_of_subset (fun _ => some "a") {"a"}
      (fun len s hs => by
        have : "a" = s := Option.some.inj hs
        simp [← this])
      (by decide) fuel 5 ∅ (Finset.empty_subset _)
  rw [h] at hnone
  exact Option.noConfusion hnone

/-- C5 amended: the sampling loop of `obfuscate` stops only by collecting
exactly `kNumStrings = 10` distinct sampled strings; when the generator's
outputs range over fewer than 10 distinct strings the loop runs forever — it
never stops at a guard bound and never surfaces a sampling-exhaustion
failure, because the code has neither. -/
theorem obfuscateSample_spec (gen : Nat → Option String) (D : Finset String)
    (hD : ∀ len s, gen len = some s → s ∈ D)
    (hcard : D.card < CFG.kNumStrings) :
    (∀ fuel result, CFG.obfuscateSample gen fuel = some result →
        result.card = CFG.kNumStrings)
  ∧ (∀ fuel, CFG.obfuscateSample gen fuel = none) :=
  ⟨fun fuel result h => CFG.sampleLoop_card_of_some gen fuel 5 ∅ result h,
   fun fuel =>
     CFG.sampleLoop_none_of_subset gen D hD hcard fuel 5 ∅ (Finset.empty_subset _)⟩

theorem obfuscateSample_spec_witness :
    (({"a"} : Finset String).card < CFG.kNumStrings)
  ∧ CFG.obfuscateSample (fun _ => some "a") 100 = none :=
  ⟨by decide,
   (obfuscateSample_spec (fun _ => some "a") {"a"}
      (fun len s hs => by
        have : "a" = s := Option.some.inj hs
        simp [← this])
      (by decide)).2 100⟩

namespace CFG

lemma symbolOk_iff (cfg : CFG) (s : Symbol) :
    symbolOk cfg s = true ↔
      ((s.type = SymbolType.terminal → s.ch ∈ cfg.alphabet)
        ∧ (s.type = SymbolType.nonterminal → s.ch ∈ cfg.nonterminals)) := by
  rcases hs : s.type with _ | _
  · unfold symbolOk
    rw [hs]
    simp [hs]
  · unfold symbolOk
    rw [hs]
    simp [hs]

/-- The JSON document used by the C10 example: start symbol `S`, a single
rule `A → ε`; `S` occurs in no rule. -/
def exJCFG : JCFG := ⟨'S', [⟨'A', []⟩]⟩

/-- The CFG that decoding `exJCFG` over the empty alphabet produces. -/
def exDanglingStart : CFG :=
  { alphabet := ∅, nonterminals := {'A'}, startSymbol := 'S',
    productions := [⟨'A', []⟩] }

end CFG

/-- C10: `validate` checks exactly that every production's terminals are in
the alphabet, every RHS nonterminal is in the declared nonterminal set, and
the LHS set equals the declared nonterminal set — the start symbol is never
consulted; consequently the CFG obtained by JSON-decoding a document whose
start symbol occurs in no rule (so it is absent from the nonterminal set)
passes validation. -/
theorem validate_spec :
    (∀ cfg : CFG.CFG,
        CFG.validate cfg = true ↔
          ((∀ p ∈ cfg.productions, ∀ s ∈ p.replacement,
              (s.type = CFG.SymbolType.terminal → s.ch ∈ cfg.alphabet)
            ∧ (s.type = CFG.SymbolType.nonterminal → s.ch ∈ cfg.nonterminals))
            ∧ CFG.producers cfg = cfg.nonterminals))
  ∧ (CFG.parseCFGJson CFG.exJCFG ∅ = Except.ok CFG.exDanglingStart
      ∧ CFG.validate CFG.exDanglingStart = true
      ∧ CFG.exDanglingStart.startSymbol ∉ CFG.exDanglingStart.nonterminals) := by
  constructor
  · intro cfg
    unfold CFG.validate
    rw [Bool.and_eq_true, List.all_eq_true, decide_eq_true_eq]
    constructor
    · rintro ⟨h1, h2⟩
      refine ⟨fun p hp s hs => ?_, h2⟩
      have := h1 p hp
      rw [List.all_eq_true] at this
      exact (CFG.symbolOk_iff cfg s).mp (this s hs)
    · rintro ⟨h1, h2⟩
      refine ⟨fun p hp => ?_, h2⟩
      rw [List.all_eq_true]
      exact fun s hs => (CFG.symbolOk_iff cfg s).mpr (h1 p hp s hs)
  · exact ⟨rfl, by decide, by decide⟩

namespace CFG

/-- The RHS nonterminal symbols of a replacement list, as a `Finset`. -/
def ntsOf (syms : List Symbol) : Finset Char :=
  (syms.filterMap
    (fun s => if s.type = SymbolType.nonterminal then some s.ch else none)).toFinset

lemma parseJSONSymbols_encode (alphabet : Finset Char) (syms : List Symbol)
    (h : ∀ s ∈ syms, s.type = SymbolType.terminal → s.ch ∈ alphabet) :
    ∀ nts, parseJSONSymbols alphabet (syms.map jsonSymbol) nts
      = Except.ok (syms, nts ∪ ntsOf syms) := by
  induction syms with
  | nil =>
    intro nts
    simp [parseJSONSymbols, ntsOf]
  | cons s rest ih =>
    intro nts
    obtain ⟨sty, sch⟩ := s
    have hrest : ∀ s ∈ rest, s.type = SymbolType.terminal → s.ch ∈ alphabet :=
      fun s hs => h s (List.mem_cons_of_mem _ hs)
    rcases sty with _ | _
    · have hch : sch ∈ alphabet :=
        h ⟨SymbolType.terminal, sch⟩ (List.mem_cons_self _ _) rfl
      have hns : ntsOf (⟨SymbolType.terminal, sch⟩ :: rest) = ntsOf rest := by
        simp [ntsOf]
      simp [List.map_cons, jsonSymbol, parseJSONSymbols, hch, ih hrest nts, hns]
    · have hne : ("NT" : String) ≠ "T" := by decide
      have hns : ntsOf (⟨SymbolType.nonterminal, sch⟩ :: rest)
          = insert sch (ntsOf rest) := by
        simp [ntsOf]
      simp [List.map_cons, jsonSymbol, parseJSONSymbols, hne,
        ih hrest (insert sch nts), hns, Finset.insert_union, Finset.union_insert]

lemma ntsOf_subset (N : Finset Char) (syms : List Symbol)
    (h : ∀ s ∈ syms, s.type = SymbolType.nonterminal → s.ch ∈ N) :
    ntsOf syms ⊆ N := by
  intro x hx
  simp only [ntsOf, List.mem_toFinset, List.mem_filterMap] at hx
  obtain ⟨s, hs, hif⟩ := hx
  rcases hst : s.type with _ | _
  · rw [hst] at hif
    simp at hif
  · rw [hst] at hif
    simp at hif
    rw [← hif]
    exact h s hs hst

lemma foldr_ntsOf_subset (N : Finset Char) (prods : List Production)
    (h : ∀ p ∈ prods, ∀ s ∈ p.replacement,
        s.type = SymbolType.nonterminal → s.ch ∈ N) :
    prods.foldr (fun p acc => ntsOf p.replacement ∪ acc) ∅ ⊆ N := by
  induction prods with
  | nil => simp
  | cons p rest ih =>
    simp only [List.foldr_cons]
    apply Finset.union_subset
    · exact ntsOf_subset N p.replacement (h p (List.mem_cons_self _ _))
    · exact ih (fun q hq => h q (List.mem_cons_of_mem _ hq))

/-- All nonterminal code points that JSON-decoding a production list collects:
the LHS names together with every RHS nonterminal. -/
def collectedNts (prods : List Production) : Finset Char :=
  (prods.map Production.nonterminal).toFinset ∪
    prods.foldr (fun p acc => ntsOf p.replacement ∪ acc) ∅

lemma parseCFGJson_rules (alphabet : Finset Char) (prods : List Production)
    (h : ∀ p ∈ prods, ∀ s ∈ p.replacement,
        s.type = SymbolType.terminal → s.ch ∈ alphabet) :
    ∀ acc : CFG, (prods.map jsonRule).foldlM (parseJSONRule alphabet) acc
      = Except.ok { acc with
          nonterminals := acc.nonterminals ∪ collectedNts prods,
          productions := acc.productions ++ prods } := by
  induction prods with
  | nil =>
    intro acc
    simp only [List.map_nil, List.foldlM_nil, collectedNts, List.map_nil,
      List.toFinset_nil, List.foldr_nil, Finset.empty_union, Finset.union_empty,
      List.append_nil]
    rfl
  | cons p rest ih =>
    intro acc
    have hp : ∀ s ∈ p.replacement, s.type = SymbolType.terminal → s.ch ∈ alphabet :=
      h p (List.mem_cons_self _ _)
    have hrest : ∀ q ∈ rest, ∀ s ∈ q.replacement,
        s.type = SymbolType.terminal → s.ch ∈ alphabet :=
      fun q hq => h q (List.mem_cons_of_mem _ hq)
    simp only [List.map_cons, List.foldlM_cons]
    rw [show parseJSONRule alphabet acc (jsonRule p)
        = Except.ok { acc with
            nonterminals := insert p.nonterminal (acc.nonterminals ∪ ntsOf p.replacement),
            productions := acc.productions ++ [p] } from ?_]
    · rw [show (Except.ok { acc with
            nonterminals := insert p.nonterminal (acc.nonterminals ∪ ntsOf p.replacement),
            productions := acc.productions ++ [p] } >>= fun acc' =>
              (rest.map jsonRule).foldlM (parseJSONRule alphabet) acc')
          = (rest.map jsonRule).foldlM (parseJSONRule alphabet)
              { acc with
                nonterminals := insert p.nonterminal (acc.nonterminals ∪ ntsOf p.replacement),
                productions := acc.productions ++ [p] } from rfl]
      rw [ih hrest]
      have hset : insert p.nonterminal (acc.nonterminals ∪ ntsOf p.replacement)
            ∪ collectedNts rest
          = acc.nonterminals ∪ collectedNts (p :: rest) := by
        ext x
        simp only [collectedNts, List.map_cons, List.toFinset_cons, List.foldr_cons,
          Finset.mem_union, Finset.mem_insert]
        tauto
      have hlist : (acc.productions ++ [p]) ++ rest = acc.productions ++ (p :: rest) := by
        simp
      rw [hset, hlist]
    · unfold parseJSONRule
      rw [show (jsonRule p).production = p.replacement.map jsonSymbol from rfl,
        parseJSONSymbols_encode alphabet p.replacement hp acc.nonterminals]
      rfl

end CFG

/-- C6: for every CFG that passes validation, decoding the JSON emitted for
it with the same alphabet supplied externally yields a structurally equal
CFG: same start symbol, same alphabet, the same productions in the same
order, and the same nonterminal set (the set is a `Finset`, so equality is
insertion-order-free). -/
theorem parseCFGJson_toJSON_roundTrip (cfg : CFG.CFG)
    (hvalid : CFG.validate cfg = true) :
    CFG.parseCFGJson (CFG.toJSON cfg) cfg.alphabet = Except.ok cfg := by
  unfold CFG.validate at hvalid
  rw [Bool.and_eq_true, List.all_eq_true, decide_eq_true_eq] at hvalid
  obtain ⟨hsyms, hlhs⟩ := hvalid
  have hterm : ∀ p ∈ cfg.productions, ∀ s ∈ p.replacement,
      s.type = CFG.SymbolType.terminal → s.ch ∈ cfg.alphabet := by
    intro p hp s hs
    have := hsyms p hp
    rw [List.all_eq_true] at this
    exact ((CFG.symbolOk_iff cfg s).mp (this s hs)).1
  have hnt : ∀ p ∈ cfg.productions, ∀ s ∈ p.replacement,
      s.type = CFG.SymbolType.nonterminal → s.ch ∈ cfg.nonterminals := by
    intro p hp s hs
    have := hsyms p hp
    rw [List.all_eq_true] at this
    exact ((CFG.symbolOk_iff cfg s).mp (this s hs)).2
  unfold CFG.parseCFGJson CFG.toJSON
  rw [show (⟨cfg.startSymbol, CFG.jsonRules cfg⟩ : CFG.JCFG).rules
      = cfg.productions.map CFG.jsonRule from rfl]
  rw [CFG.parseCFGJson_rules cfg.alphabet cfg.productions hterm]
  have hcollected : CFG.collectedNts cfg.productions = cfg.nonterminals := by
    have hsub : cfg.productions.foldr
        (fun p acc => CFG.ntsOf p.replacement ∪ acc) ∅ ⊆ cfg.nonterminals :=
      CFG.foldr_ntsOf_subset cfg.nonterminals cfg.productions hnt
    unfold CFG.collectedNts
    rw [show (cfg.productions.map CFG.Production.nonterminal).toFinset
        = CFG.producers cfg from rfl, hlhs]
    exact Finset.union_eq_left.mpr hsub
  rw [hcollected]
  simp

namespace CFG

/-- Example grammar for the C6 witness: `S → aS | ε` over alphabet `{a}`. -/
def exRound : CFG :=
  { alphabet := {'a'}, nonterminals := {'S'}, startSymbol := 'S',
    productions := [⟨'S', [⟨SymbolType.terminal, 'a'⟩, ⟨SymbolType.nonterminal, 'S'⟩]⟩,
                    ⟨'S', []⟩] }

end CFG

theorem parseCFGJson_toJSON_roundTrip_witness :
    CFG.validate CFG.exRound = true
  ∧ CFG.parseCFGJson (CFG.toJSON CFG.exRound) CFG.exRound.alphabet
      = Except.ok CFG.exRound :=
  ⟨by decide, parseCFGJson_toJSON_roundTrip CFG.exRound (by decide)⟩

namespace CFG

/-- `kMaxSize` from `Main.cpp`. -/
def kMaxSize : Nat := 15

/-- `kTestsPerSize` from `Main.cpp`. -/
def kTestsPerSize : Nat := 1000

/-- One direction of a `seemEquivalent` trial: generate a string (`none`
models `ok == false`) and report it iff it was produced but the other
grammar's matcher rejects it.  Generators take the size and the trial number,
parameterising the random sampling sequence. -/
def genCheck (gen : Nat → Nat → Option String) (mtch : String → Bool)
    (i t : Nat) : Option String :=
  match gen i t with
  | some s => if mtch s then none else some s
  | none => none

/-- One trial of `seemEquivalent`: check `L(one) ⊆ L(two)` first, then
`L(two) ⊆ L(one)`; the first failing check yields the witnessing string. -/
def trialCheck (gen1 gen2 : Nat → Nat → Option String)
    (match1 match2 : String → Bool) (i t : Nat) : Option String :=
  genCheck gen1 match2 i t <|> genCheck gen2 match1 i t

/-- A counted `for` loop with early return: run `f` on `n`, `n+1`, … for
`rem` iterations and return the first `some`. -/
def loopFrom (f : Nat → Option String) : Nat → Nat → Option String
  | _, 0 => none
  | n, rem + 1 => f n <|> loopFrom f (n + 1) rem

/-- `seemEquivalent` from `Main.cpp`: for each size `i ∈ [0, kMaxSize)` run
`kTestsPerSize` trials; the first failing assertion ends the search with its
witnessing string (`some w` models `return false` with `out = w`); `none`
models `return true`. -/
def seemEquivalent (gen1 gen2 : Nat → Nat → Option String)
    (match1 match2 : String → Bool) : Option String :=
  loopFrom (fun i =>
    loopFrom (fun t => trialCheck gen1 gen2 match1 match2 i t) 0 kTestsPerSize)
    0 kMaxSize

/-- Both assertions of a trial hold (vacuously when generation fails). -/
def bothPass (gen1 gen2 : Nat → Nat → Option String)
    (match1 match2 : String → Bool) (i t : Nat) : Prop :=
  (∀ s, gen1 i t = some s → match2 s = true)
    ∧ (∀ s, gen2 i t = some s → match1 s = true)

/-- The trial at `(i, t)` fails with witnessing string `w`: either the string
generated from the first grammar is rejected by the second matcher, or that
first assertion passes and the string generated from the second grammar is
rejected by the first matcher. -/
def failsWith (gen1 gen2 : Nat → Nat → Option String)
    (match1 match2 : String → Bool) (i t : Nat) (w : String) : Prop :=
  (gen1 i t = some w ∧ match2 w = false)
    ∨ ((∀ s, gen1 i t = some s → match2 s = true)
        ∧ gen2 i t = some w ∧ match1 w = false)

lemma orElse_eq_none_iff (a b : Option String) :
    (a <|> b) = none ↔ a = none ∧ b = none := by
  cases a <;> simp

lemma orElse_eq_some_iff (a b : Option String) (w : String) :
    (a <|> b) = some w ↔ a = some w ∨ (a = none ∧ b = some w) := by
  cases a <;> simp

lemma genCheck_eq_none_iff (gen : Nat → Nat → Option String)
    (mtch : String → Bool) (i t : Nat) :
    genCheck gen mtch i t = none ↔ ∀ s, gen i t = some s → mtch s = true := by
  unfold genCheck
  rcases hg : gen i t with _ | s
  · simp
  · by_cases hm : mtch s = true
    · simp [hm]
    · rw [Bool.not_eq_true] at hm
      simp [hm]

lemma genCheck_eq_some_iff (gen : Nat → Nat → Option String)
    (mtch : String → Bool) (i t : Nat) (w : String) :
    genCheck gen mtch i t = some w ↔ gen i t = some w ∧ mtch w = false := by
  unfold genCheck
  rcases hg : gen i t with _ | s
  · simp
  · show (if mtch s = true then none else some s) = some w
      ↔ some s = some w ∧ mtch w = false
    by_cases hm : mtch s = true
    · rw [if_pos hm]
      constructor
      · intro h
        exact Option.noConfusion h
      · rintro ⟨hw, hmw⟩
        rw [← Option.some.inj hw] at hmw
        rw [hm] at hmw
        exact Bool.noConfusion hmw
    · have hm' : mtch s = false := Bool.not_eq_true _ ▸ eq_false_of_ne_true hm
      rw [if_neg hm]
      constructor
      · intro h
        refine ⟨h, ?_⟩
        rw [← Option.some.inj h]
        exact hm'
      · rintro ⟨hw, _⟩
        exact hw

lemma trialCheck_eq_none_iff (gen1 gen2 : Nat → Nat → Option String)
    (match1 match2 : String → Bool) (i t : Nat) :
    trialCheck gen1 gen2 match1 match2 i t = none
      ↔ bothPass gen1 gen2 match1 match2 i t := by
  unfold trialCheck bothPass
  rw [orElse_eq_none_iff, genCheck_eq_none_iff, genCheck_eq_none_iff]

lemma trialCheck_eq_some_iff (gen1 gen2 : Nat → Nat → Option String)
    (match1 match2 : String → Bool) (i t : Nat) (w : String) :
    trialCheck gen1 gen2 match1 match2 i t = some w
      ↔ failsWith gen1 gen2 match1 match2 i t w := by
  unfold trialCheck failsWith
  rw [orElse_eq_some_iff, genCheck_eq_some_iff, genCheck_eq_none_iff,
    genCheck_eq_some_iff]

lemma loopFrom_eq_none_iff (f : Nat → Option String) :
    ∀ rem n, loopFrom f n rem = none ↔ ∀ k, n ≤ k → k < n + rem → f k = none := by
  intro rem
  induction rem with
  | zero =>
    intro n
    constructor
    · intro _ k h1 h2
      omega
    · intro _
      rfl
  | succ r ih =>
    intro n
    unfold loopFrom
    rw [orElse_eq_none_iff, ih (n + 1)]
    constructor
    · rintro ⟨h1, h2⟩ k hk1 hk2
      rcases Nat.eq_or_lt_of_le hk1 with hk | hk
      · rw [← hk]; exact h1
      · exact h2 k hk (by omega)
    · intro h
      exact ⟨h n le_rfl (by omega), fun k hk1 hk2 => h k (by omega) (by omega)⟩

lemma loopFrom_eq_some_iff (f : Nat → Option String) :
    ∀ rem n w, loopFrom f n rem = some w ↔
      ∃ k, n ≤ k ∧ k < n + rem ∧ f k = some w
        ∧ ∀ j, n ≤ j → j < k → f j = none := by
  intro rem
  induction rem with
  | zero =>
    intro n w
    constructor
    · intro h
      exact Option.noConfusion h
    · rintro ⟨k, h1, h2, _⟩
      omega
  | succ r ih =>
    intro n w
    unfold loopFrom
    rw [orElse_eq_some_iff, ih (n + 1)]
    constructor
    · rintro (h | ⟨hnone, k, hk1, hk2, hkw, hpre⟩)
      · exact ⟨n, le_rfl, by omega, h, fun j hj1 hj2 => by omega⟩
      · refine ⟨k, by omega, by omega, hkw, fun j hj1 hj2 => ?_⟩
        rcases Nat.eq_or_lt_of_le hj1 with hj | hj
        · rw [← hj]; exact hnone
        · exact hpre j hj hj2
    · rintro ⟨k, hk1, hk2, hkw, hpre⟩
      rcases Nat.eq_or_lt_of_le hk1 with hk | hk
      · rw [← hk] at hkw
        exact Or.inl hkw
      · refine Or.inr ⟨hpre n le_rfl hk, k, hk, by omega, hkw,
          fun j hj1 hj2 => hpre j (by omega) hj2⟩

end CFG

/-- C7: `seemEquivalent` returns "no counterexample" iff for every size
`i < 15` and every trial `t < 1000` both directional assertions hold
(assertions are skipped when generation fails), and when it returns a
witnessing string `w` there is a first failing assertion — at some
`(i, t)` — that produced `w`, every earlier size and trial having passed. -/
theorem seemEquivalent_spec (gen1 gen2 : Nat → Nat → Option String)
    (match1 match2 : String → Bool) :
    (CFG.seemEquivalent gen1 gen2 match1 match2 = none ↔
      ∀ i, i < CFG.kMaxSize → ∀ t, t < CFG.kTestsPerSize →
        CFG.bothPass gen1 gen2 match1 match2 i t)
  ∧ (∀ w, CFG.seemEquivalent gen1 gen2 match1 match2 = some w →
      ∃ i, i < CFG.kMaxSize ∧ ∃ t, t < CFG.kTestsPerSize ∧
        CFG.failsWith gen1 gen2 match1 match2 i t w
        ∧ (∀ i2, i2 < i → ∀ t2, t2 < CFG.kTestsPerSize →
            CFG.bothPass gen1 gen2 match1 match2 i2 t2)
        ∧ (∀ t2, t2 < t → CFG.bothPass gen1 gen2 match1 match2 i t2)) := by
  constructor
  · unfold CFG.seemEquivalent
    rw [CFG.loopFrom_eq_none_iff]
    constructor
    · intro h i hi t ht
      have := (CFG.loopFrom_eq_none_iff _ CFG.kTestsPerSize 0).mp
        (h i (by omega) (by omega)) t (by omega) (by omega)
      exact (CFG.trialCheck_eq_none_iff gen1 gen2 match1 match2 i t).mp this
    · intro h i hi1 hi2
      rw [CFG.loopFrom_eq_none_iff]
      intro t ht1 ht2
      rw [CFG.trialCheck_eq_none_iff]
      exact h i (by omega) t (by omega)
  · intro w h
    unfold CFG.seemEquivalent at h
    rw [CFG.loopFrom_eq_some_iff] at h
    obtain ⟨i, _, hi2, hiw, hipre⟩ := h
    rw [CFG.loopFrom_eq_some_iff] at hiw
    obtain ⟨t, _, ht2, htw, htpre⟩ := hiw
    refine ⟨i, by omega, t, by omega,
      (CFG.trialCheck_eq_some_iff gen1 gen2 match1 match2 i t w).mp htw,
      ?_, ?_⟩
    · intro i2 hi2lt t2 ht2lt
      have := (CFG.loopFrom_eq_none_iff _ CFG.kTestsPerSize 0).mp
        (hipre i2 (by omega) (by omega)) t2 (by omega) (by omega)
      exact (CFG.trialCheck_eq_none_iff gen1 gen2 match1 match2 i2 t2).mp this
    · intro t2 ht2lt
      exact (CFG.trialCheck_eq_none_iff gen1 gen2 match1 match2 i t2).mp
        (htpre t2 (by omega) (by omega))

namespace CFG

/-- `CFG::TokenType` from `CFGScanner.h`: the token classes delivered by the
external scanner. -/
inductive TokenType where
  | NONTERMINAL : TokenType
  | TERMINAL : TokenType
  | ARROW : TokenType
  | BAR : TokenType
  | EPSILON : TokenType
  | SCAN_EOF : TokenType
deriving DecidableEq

/-- `CFG::Token`: a token class plus its code point payload. -/
structure Token where
  type : TokenType
  data : Char
deriving DecidableEq

/-- The symbol-accumulation loop of `parseProduction` in `CFGParser.cpp`:
keep consuming TERMINAL / NONTERMINAL tokens until the lookahead is BAR,
SCAN_EOF, or NONTERMINAL followed by ARROW (the start of the next variable
declaration); `peek` past the end of the input raises the unexpected-EOF
error. -/
def parseProdSymbols (alphabet : Finset Char) (nt : Char) :
    List Token → List Symbol → Except String (Production × List Token)
  | [], _ => Except.error "Unexpected end of input found."
  | tok :: rest, acc =>
    if tok.type = TokenType.BAR ∨ tok.type = TokenType.SCAN_EOF then
      Except.ok (⟨nt, acc.reverse⟩, tok :: rest)
    else if tok.type = TokenType.NONTERMINAL then
      match rest with
      | [] => Except.error "Unexpected end of input found."
      | tok2 :: _ =>
        if tok2.type = TokenType.ARROW then
          Except.ok (⟨nt, acc.reverse⟩, tok :: rest)
        else
          parseProdSymbols alphabet nt rest (⟨SymbolType.nonterminal, tok.data⟩ :: acc)
    else if tok.type = TokenType.TERMINAL then
      if tok.data ∈ alphabet then
        parseProdSymbols alphabet nt rest (⟨SymbolType.terminal, tok.data⟩ :: acc)
      else Except.error ("Character '" ++ String.mk [tok.data] ++ "' is not in alphabet.")
    else Except.error "Unexpected token."

/-- `parseProduction` from `CFGParser.cpp`: an EPSILON token denotes the
empty production, otherwise read a symbol string. -/
def parseProduction (alphabet : Finset Char) (nt : Char) :
    List Token → Except String (Production × List Token)
  | [] => Except.error "Unexpected end of input found."
  | tok :: rest =>
    if tok.type = TokenType.EPSILON then Except.ok (⟨nt, []⟩, rest)
    else parseProdSymbols alphabet nt (tok :: rest) []

/-- `parseProductionList` from `CFGParser.cpp`: one production, then more as
long as the lookahead is BAR.  The fuel argument bounds the loop; each
continuing iteration consumes at least the BAR token, so any fuel exceeding
the input length behaves like the unbounded C++ loop. -/
def parseProductionList (alphabet : Finset Char) (nt : Char) :
    Nat → List Token → Except String (List Production × List Token)
  | 0, _ => Except.error "out of fuel"
  | fuel + 1, input =>
    match parseProduction alphabet nt input with
    | Except.error e => Except.error e
    | Except.ok (p, rest) =>
      match rest with
      | [] => Except.error "Unexpected end of input found."
      | tok :: rest2 =>
        if tok.type = TokenType.BAR then
          match parseProductionList alphabet nt fuel rest2 with
          | Except.ok (ps, rest3) => Except.ok (p :: ps, rest3)
          | Except.error e => Except.error e
        else Except.ok ([p], tok :: rest2)

/-- `parseVariableDecl` from `CFGParser.cpp`: a NONTERMINAL, an ARROW, then a
production list. -/
def parseVariableDecl (alphabet : Finset Char) (fuel : Nat) :
    List Token → Except String (List Production × List Token)
  | [] => Except.error "Unexpected end of input found."
  | tok :: rest =>
    if tok.type = TokenType.NONTERMINAL then
      match rest with
      | [] => Except.error "Unexpected end of input found."
      | tok2 :: rest2 =>
        if tok2.type = TokenType.ARROW then
          parseProductionList alphabet tok.data fuel rest2
        else Except.error "Expected an arrow."
    else Except.error "Expected a nonterminal."

/-- The declaration loop of `parseGrammar` in `CFGParser.cpp`: read variable
declarations until the lookahead is SCAN_EOF.  The first declaration's LHS
claims the start-symbol slot whenever the slot still holds the unset sentinel
`char32_t(0)`; reading `input.front()` on an exhausted deque (a stream with
no SCAN_EOF token) is undefined behaviour in the C++ and is modelled as an
error. -/
def parseGrammarLoop (alphabet : Finset Char) :
    Nat → List Token → CFG → Except String CFG
  | 0, _, _ => Except.error "out of fuel"
  | fuel + 1, input, result =>
    match parseVariableDecl alphabet (input.length + 1) input with
    | Except.error e => Except.error e
    | Except.ok (decl, rest) =>
      match decl with
      | [] => Except.error "abort: declaration with no production"
      | p :: _ =>
        let nt := p.nonterminal
        let result' : CFG :=
          { result with
            nonterminals := insert nt result.nonterminals,
            startSymbol :=
              if result.startSymbol = Char.ofNat 0 then nt else result.startSymbol,
            productions := result.productions ++ decl }
        match rest with
        | [] => Except.error "input.front() on empty deque"
        | tok :: _ =>
          if tok.type = TokenType.SCAN_EOF then
            if result'.nonterminals = ∅ then Except.error "No productions found."
            else Except.ok result'
          else parseGrammarLoop alphabet fuel rest result'

/-- `parseCFG(tokens, alphabet)` from `CFGParser.cpp`: run the declaration
loop on a freshly default-constructed CFG. -/
def parseCFGText (tokens : List Token) (alphabet : Finset Char) :
    Except String CFG :=
  parseGrammarLoop alphabet (tokens.length + 1) tokens
    { alphabet := alphabet, nonterminals := ∅,
      startSymbol := Char.ofNat 0, productions := [] }

/-- The start-symbol update law of `parseGrammar`, folded over a sequence of
LHS nonterminals: the slot keeps the first LHS that differs from the unset
sentinel, and stays at the sentinel otherwise. -/
def startFold (lhss : List Char) : Char :=
  lhss.foldl (fun st nt => if st = Char.ofNat 0 then nt else st) (Char.ofNat 0)

end CFG

namespace CFG

lemma parseProdSymbols_nt (alphabet : Finset Char) (nt : Char) :
    ∀ input acc p rest,
      parseProdSymbols alphabet nt input acc = Except.ok (p, rest) →
      p.nonterminal = nt := by
  intro input
  induction input with
  | nil =>
    intro acc p rest h
    exact Except.noConfusion h
  | cons tok toks ih =>
    intro acc p rest h
    simp only [parseProdSymbols] at h
    by_cases h1 : tok.type = TokenType.BAR ∨ tok.type = TokenType.SCAN_EOF
    · rw [if_pos h1] at h
      obtain ⟨h5, -⟩ := Prod.mk.inj (Except.ok.inj h)
      rw [← h5]
    · rw [if_neg h1] at h
      by_cases h2 : tok.type = TokenType.NONTERMINAL
      · rw [if_pos h2] at h
        rcases toks with _ | ⟨tok2, toks2⟩
        · exact Except.noConfusion h
        · simp only [] at h
          by_cases h3 : tok2.type = TokenType.ARROW
          · rw [if_pos h3] at h
            obtain ⟨h5, -⟩ := Prod.mk.inj (Except.ok.inj h)
            rw [← h5]
          · rw [if_neg h3] at h
            exact ih _ p rest h
      · rw [if_neg h2] at h
        by_cases h4 : tok.type = TokenType.TERMINAL
        · rw [if_pos h4] at h
          by_cases h5 : tok.data ∈ alphabet
          · rw [if_pos h5] at h
            exact ih _ p rest h
          · rw [if_neg h5] at h
            exact Except.noConfusion h
        · rw [if_neg h4] at h
          exact Except.noConfusion h

lemma parseProduction_nt (alphabet : Finset Char) (nt : Char)
    (input : List Token) (p : Production) (rest : List Token)
    (h : parseProduction alphabet nt input = Except.ok (p, rest)) :
    p.nonterminal = nt := by
  rcases input with _ | ⟨tok, toks⟩
  · exact Except.noConfusion h
  · simp only [parseProduction] at h
    by_cases h1 : tok.type = TokenType.EPSILON
    · rw [if_pos h1] at h
      obtain ⟨h5, -⟩ := Prod.mk.inj (Except.ok.inj h)
      rw [← h5]
    · rw [if_neg h1] at h
      exact parseProdSymbols_nt alphabet nt (tok :: toks) [] p rest h

lemma parseProductionList_nt (alphabet : Finset Char) (nt : Char) :
    ∀ fuel input ps rest,
      parseProductionList alphabet nt fuel input = Except.ok (ps, rest) →
      ps ≠ [] ∧ ∀ p ∈ ps, p.nonterminal = nt := by
  intro fuel
  induction fuel with
  | zero =>
    intro input ps rest h
    exact Except.noConfusion h
  | succ n ih =>
    intro input ps rest h
    simp only [parseProductionList] at h
    rcases hp : parseProduction alphabet nt input with e | ⟨p, rest1⟩
    · rw [hp] at h
      exact Except.noConfusion h
    · rw [hp] at h
      simp only [] at h
      have hpnt : p.nonterminal = nt := parseProduction_nt alphabet nt input p rest1 hp
      rcases rest1 with _ | ⟨tok, rest2⟩
      · exact Except.noConfusion h
      · simp only [] at h
        by_cases hbar : tok.type = TokenType.BAR
        · rw [if_pos hbar] at h
          rcases hrec : parseProductionList alphabet nt n rest2 with e | ⟨ps2, rest3⟩
          · rw [hrec] at h
            exact Except.noConfusion h
          · rw [hrec] at h
            simp only [] at h
            obtain ⟨hps, -⟩ := Prod.mk.inj (Except.ok.inj h)
            obtain ⟨-, hall⟩ := ih rest2 ps2 rest3 hrec
            rw [← hps]
            refine ⟨List.cons_ne_nil _ _, ?_⟩
            intro q hq
            rcases List.mem_cons.mp hq with hq | hq
            · rw [hq]; exact hpnt
            · exact hall q hq
        · rw [if_neg hbar] at h
          obtain ⟨hps, -⟩ := Prod.mk.inj (Except.ok.inj h)
          rw [← hps]
          refine ⟨List.cons_ne_nil _ _, ?_⟩
          intro q hq
          rcases List.mem_cons.mp hq with hq | hq
          · rw [hq]; exact hpnt
          · simp at hq

lemma parseVariableDecl_shape (alphabet : Finset Char) (fuel : Nat) :
    ∀ input decl rest,
      parseVariableDecl alphabet fuel input = Except.ok (decl, rest) →
      decl ≠ [] ∧ ∃ c, ∀ q ∈ decl, q.nonterminal = c := by
  intro input decl rest h
  rcases input with _ | ⟨tok, toks⟩
  · exact Except.noConfusion h
  · simp only [parseVariableDecl] at h
    by_cases h1 : tok.type = TokenType.NONTERMINAL
    · rw [if_pos h1] at h
      rcases toks with _ | ⟨tok2, toks2⟩
      · exact Except.noConfusion h
      · simp only [] at h
        by_cases h2 : tok2.type = TokenType.ARROW
        · rw [if_pos h2] at h
          obtain ⟨hne, hall⟩ := parseProductionList_nt alphabet tok.data fuel toks2 decl rest h
          exact ⟨hne, tok.data, hall⟩
        · rw [if_neg h2] at h
          exact Except.noConfusion h
    · rw [if_neg h1] at h
      exact Except.noConfusion h

lemma foldl_start_of_ne (st : Char) (h : st ≠ Char.ofNat 0) :
    ∀ l : List Char,
      l.foldl (fun st nt => if st = Char.ofNat 0 then nt else st) st = st := by
  intro l
  induction l with
  | nil => rfl
  | cons a l ih =>
    simp only [List.foldl_cons, if_neg h]
    exact ih

lemma foldl_start_const (nt : Char) :
    ∀ l : List Char, l ≠ [] → (∀ c ∈ l, c = nt) → ∀ st,
      l.foldl (fun st nt => if st = Char.ofNat 0 then nt else st) st
        = if st = Char.ofNat 0 then nt else st := by
  intro l
  induction l with
  | nil => intro h; exact absurd rfl h
  | cons a l ih =>
    intro _ hall st
    have ha : a = nt := hall a (List.mem_cons_self _ _)
    rcases hl : l with _ | ⟨b, l2⟩
    · subst ha
      rfl
    · have hlne : l ≠ [] := by rw [hl]; exact List.cons_ne_nil _ _
      have hall' : ∀ c ∈ l, c = nt := fun c hc => hall c (List.mem_cons_of_mem _ hc)
      rw [← hl, List.foldl_cons, ih hlne hall' _]
      subst ha
      by_cases hst : st = Char.ofNat 0
      · simp [hst]
      · simp [hst]

lemma parseGrammarLoop_invariant (alphabet : Finset Char) :
    ∀ fuel input acc cfg,
      parseGrammarLoop alphabet fuel input acc = Except.ok cfg →
      acc.nonterminals = (acc.productions.map Production.nonterminal).toFinset →
      acc.startSymbol
          = (acc.productions.map Production.nonterminal).foldl
              (fun st nt => if st = Char.ofNat 0 then nt else st) (Char.ofNat 0) →
      cfg.alphabet = acc.alphabet
      ∧ cfg.nonterminals = (cfg.productions.map Production.nonterminal).toFinset
      ∧ cfg.startSymbol = startFold (cfg.productions.map Production.nonterminal) := by
  intro fuel
  induction fuel with
  | zero =>
    intro input acc cfg h _ _
    exact Except.noConfusion h
  | succ n ih =>
    intro input acc cfg h hinv1 hinv2
    unfold parseGrammarLoop at h
    rcases hdecl : parseVariableDecl alphabet (input.length + 1) input with e | ⟨decl, rest⟩
    · rw [hdecl] at h
      exact Except.noConfusion h
    · rw [hdecl] at h
      obtain ⟨hdne, c, hdall⟩ :=
        parseVariableDecl_shape alphabet (input.length + 1) input decl rest hdecl
      rcases hdl : decl with _ | ⟨p, ds⟩
      · exact absurd hdl hdne
      · rw [hdl] at h
        simp only at h
        rw [hdl] at hdall
        have hpc : p.nonterminal = c := hdall p (List.mem_cons_self _ _)
        set result' : CFG :=
          { acc with
            nonterminals := insert p.nonterminal acc.nonterminals,
            startSymbol :=
              if acc.startSymbol = Char.ofNat 0 then p.nonterminal else acc.startSymbol,
            productions := acc.productions ++ p :: ds } with hres
        have hinv1' : result'.nonterminals
            = (result'.productions.map Production.nonterminal).toFinset := by
          rw [hres]
          simp only [List.map_append, List.toFinset_append]
          rw [← hinv1]
          have : ((p :: ds).map Production.nonterminal).toFinset = {p.nonterminal} := by
            ext x
            simp only [List.toFinset_cons, List.mem_toFinset, List.map_cons,
              Finset.mem_insert, List.mem_toFinset, List.mem_map,
              Finset.mem_singleton]
            constructor
            · rintro (hx | ⟨q, hq, hx⟩)
              · exact hx
              · rw [← hx, hdall q (List.mem_cons_of_mem _ hq), ← hpc]
            · intro hx
              exact Or.inl hx
          rw [this]
          ext x
          simp only [Finset.mem_insert, Finset.mem_union, Finset.mem_singleton]
          tauto
        have hinv2' : result'.startSymbol
            = (result'.productions.map Production.nonterminal).foldl
                (fun st nt => if st = Char.ofNat 0 then nt else st) (Char.ofNat 0) := by
          rw [hres]
          simp only [List.map_append, List.foldl_append]
          rw [← hinv2]
          have hmapne : ((p :: ds).map Production.nonterminal) ≠ [] := by simp
          have hmapall : ∀ x ∈ (p :: ds).map Production.nonterminal, x = p.nonterminal := by
            intro x hx
            rcases List.mem_map.mp hx with ⟨q, hq, hqx⟩
            rw [← hqx, hdall q hq, ← hpc]
          rw [foldl_start_const p.nonterminal _ hmapne hmapall acc.startSymbol]
        rcases hrest : rest with _ | ⟨tok, rest2⟩
        · rw [hrest] at h
          exact Except.noConfusion h
        · rw [hrest] at h
          simp only [] at h
          by_cases heof : tok.type = TokenType.SCAN_EOF
          · rw [if_pos heof] at h
            by_cases hempty : result'.nonterminals = ∅
            · rw [if_pos hempty] at h
              exact Except.noConfusion h
            · rw [if_neg hempty] at h
              have hcfg : result' = cfg := Except.ok.inj h
              rw [← hcfg]
              exact ⟨rfl, hinv1', hinv2'⟩
          · rw [if_neg heof] at h
            have := ih (tok :: rest2) result' cfg h hinv1' hinv2'
            rw [hres] at this
            exact this

end CFG

/-- C8 amended: for every token stream accepted by the text parser, the
nonterminal set of the resulting CFG is exactly the set of LHS nonterminals
of the declarations (so nonterminals occurring only on a right-hand side are
not added), the alphabet is the supplied one, and the start symbol is the
first LHS whose code point differs from the unset sentinel `char32_t(0)` — in
particular it is the first LHS encountered whenever that LHS is not the NUL
code point. -/
theorem parseCFGText_spec (tokens : List CFG.Token) (alphabet : Finset Char)
    (cfg : CFG.CFG) (h : CFG.parseCFGText tokens alphabet = Except.ok cfg) :
    cfg.alphabet = alphabet
  ∧ cfg.nonterminals = CFG.producers cfg
  ∧ cfg.startSymbol = CFG.startFold (cfg.productions.map CFG.Production.nonterminal)
  ∧ (∀ c lhss, cfg.productions.map CFG.Production.nonterminal = c :: lhss →
      c ≠ Char.ofNat 0 → cfg.startSymbol = c) := by
  unfold CFG.parseCFGText at h
  have := CFG.parseGrammarLoop_invariant alphabet (tokens.length + 1) tokens
    { alphabet := alphabet, nonterminals := ∅,
      startSymbol := Char.ofNat 0, productions := [] } cfg h (by simp) (by simp)
  obtain ⟨h1, h2, h3⟩ := this
  refine ⟨h1, h2, h3, ?_⟩
  intro c lhss hmap hc
  rw [h3, hmap]
  unfold CFG.startFold
  simp only [List.foldl_cons, if_pos rfl]
  exact CFG.foldl_start_of_ne c hc lhss

namespace CFG

/-- Token stream for the C8 counterexample: `⟨NUL⟩ → ε  B → ε  EOF`, i.e. the
first declared nonterminal is the NUL code point U+0000. -/
def exNulToks : List Token :=
  [⟨TokenType.NONTERMINAL, Char.ofNat 0⟩, ⟨TokenType.ARROW, ' '⟩,
   ⟨TokenType.EPSILON, ' '⟩,
   ⟨TokenType.NONTERMINAL, 'B'⟩, ⟨TokenType.ARROW, ' '⟩,
   ⟨TokenType.EPSILON, ' '⟩,
   ⟨TokenType.SCAN_EOF, ' '⟩]

/-- The CFG the parser accepts for `exNulToks`: the start symbol ends up
being `B`, the second LHS, not the first LHS encountered. -/
def exNulCFG : CFG :=
  { alphabet := ∅, nonterminals := {'B', Char.ofNat 0}, startSymbol := 'B',
    productions := [⟨Char.ofNat 0, []⟩, ⟨'B', []⟩] }

end CFG

/-- C8 counterexample: a token stream accepted by the text parser whose
resulting start symbol is not the first LHS nonterminal encountered: the
first declaration's LHS is the NUL code point, which coincides with the
parser's unset-start sentinel `char32_t(0)`, so the second LHS `B` claims the
start slot. -/
theorem parseCFGText_nul_start :
    CFG.parseCFGText CFG.exNulToks ∅ = Except.ok CFG.exNulCFG
  ∧ (CFG.exNulCFG.productions.map CFG.Production.nonterminal).head?
      = some (Char.ofNat 0)
  ∧ CFG.exNulCFG.startSymbol ≠ Char.ofNat 0 :=
  ⟨rfl, rfl, by decide⟩

namespace CFG

/-- Token stream for the C8 witness: `S → ε | a S  EOF` over alphabet `{a}`. -/
def exTextToks : List Token :=
  [⟨TokenType.NONTERMINAL, 'S'⟩, ⟨TokenType.ARROW, ' '⟩,
   ⟨TokenType.EPSILON, ' '⟩, ⟨TokenType.BAR, ' '⟩,
   ⟨TokenType.TERMINAL, 'a'⟩, ⟨TokenType.NONTERMINAL, 'S'⟩,
   ⟨TokenType.SCAN_EOF, ' '⟩]

/-- The CFG the parser produces for `exTextToks`. -/
def exTextCFG : CFG :=
  { alphabet := {'a'}, nonterminals := {'S'}, startSymbol := 'S',
    productions := [⟨'S', []⟩,
                    ⟨'S', [⟨SymbolType.terminal, 'a'⟩, ⟨SymbolType.nonterminal, 'S'⟩]⟩] }

end CFG

theorem parseCFGText_spec_witness :
    CFG.parseCFGText CFG.exTextToks {'a'} = Except.ok CFG.exTextCFG
  ∧ (CFG.exTextCFG.alphabet = {'a'}
      ∧ CFG.exTextCFG.nonterminals = CFG.producers CFG.exTextCFG
      ∧ CFG.exTextCFG.startSymbol
          = CFG.startFold (CFG.exTextCFG.productions.map CFG.Production.nonterminal)
      ∧ (∀ c lhss,
          CFG.exTextCFG.productions.map CFG.Production.nonterminal = c :: lhss →
          c ≠ Char.ofNat 0 → CFG.exTextCFG.startSymbol = c)) :=
  ⟨rfl, parseCFGText_spec CFG.exTextToks {'a'} CFG.exTextCFG rfl⟩

namespace IterFix

variable {α : Type} {β : Type}

lemma iterate_subset_of_le (f : Finset α → Finset α) (hinfl : ∀ S, S ⊆ f S)
    {m n : Nat} (h : m ≤ n) : f^[m] ∅ ⊆ f^[n] ∅ := by
  induction n with
  | zero =>
    rw [Nat.le_zero.mp h]
  | succ k ih =>
    rcases Nat.eq_or_lt_of_le h with h2 | h2
    · rw [h2]
    · refine (ih (by omega)).trans ?_
      rw [Function.iterate_succ_apply']
      exact hinfl _

lemma iterate_subset_bound (f : Finset α → Finset α) (U : Finset α)
    (hbound : ∀ S, S ⊆ U → f S ⊆ U) (n : Nat) : f^[n] ∅ ⊆ U := by
  induction n with
  | zero => exact Finset.empty_subset U
  | succ k ih =>
    rw [Function.iterate_succ_apply']
    exact hbound _ ih

lemma iterate_card_grow (f : Finset α → Finset α) (hinfl : ∀ S, S ⊆ f S) :
    ∀ n, (∀ j, j < n → f^[j + 1] ∅ ≠ f^[j] ∅) → n ≤ (f^[n] ∅).card := by
  intro n
  induction n with
  | zero => intro _; omega
  | succ k ih =>
    intro h
    have hk : k ≤ (f^[k] ∅).card := ih (fun j hj => h j (by omega))
    have hne : f^[k + 1] ∅ ≠ f^[k] ∅ := h k (by omega)
    have hsub : f^[k] ∅ ⊆ f^[k + 1] ∅ := by
      rw [Function.iterate_succ_apply']
      exact hinfl _
    have : (f^[k] ∅).card < (f^[k + 1] ∅).card :=
      Finset.card_lt_card (ssubset_of_subset_of_ne hsub (Ne.symm hne))
    omega

lemma iterate_stable_from (f : Finset α → Finset α) (k : Nat)
    (hk : f^[k + 1] ∅ = f^[k] ∅) : ∀ m, k ≤ m → f^[m] ∅ = f^[k] ∅ := by
  intro m
  induction m with
  | zero =>
    intro h
    rw [Nat.le_zero.mp h]
  | succ j ih =>
    intro h
    rcases Nat.eq_or_lt_of_le h with h2 | h2
    · rw [← h2]
    · have hj : k ≤ j := by omega
      rw [Function.iterate_succ_apply', ih hj, ← Function.iterate_succ_apply' f k, hk]

lemma iterate_fixed (f : Finset α → Finset α) (U : Finset α)
    (hinfl : ∀ S, S ⊆ f S) (hbound : ∀ S, S ⊆ U → f S ⊆ U) :
    f (f^[U.card + 1] ∅) = f^[U.card + 1] ∅ := by
  by_cases hex : ∃ k, k ≤ U.card ∧ f^[k + 1] ∅ = f^[k] ∅
  · obtain ⟨k, hk1, hk2⟩ := hex
    have h1 : f^[U.card + 1] ∅ = f^[k] ∅ :=
      iterate_stable_from f k hk2 (U.card + 1) (by omega)
    rw [h1, ← Function.iterate_succ_apply' f k, hk2]
  · push_neg at hex
    have : U.card + 1 ≤ (f^[U.card + 1] ∅).card :=
      iterate_card_grow f hinfl (U.card + 1) (fun j hj => hex j (by omega))
    have hle : (f^[U.card + 1] ∅).card ≤ U.card :=
      Finset.card_le_card (iterate_subset_bound f U hbound (U.card + 1))
    omega

lemma iterate_le_closed (f : Finset α → Finset α) (T : Set α)
    (hcl : ∀ S : Finset α, ↑S ⊆ T → ↑(f S) ⊆ T) (n : Nat) :
    ↑(f^[n] (∅ : Finset α)) ⊆ T := by
  induction n with
  | zero =>
    intro x hx
    simp at hx
  | succ k ih =>
    rw [Function.iterate_succ_apply']
    exact hcl _ ih

lemma foldl_infl (step : Finset α → β → Finset α)
    (h : ∀ S e, S ⊆ step S e) : ∀ (l : List β) (S), S ⊆ l.foldl step S := by
  intro l
  induction l with
  | nil => intro S; exact subset_rfl
  | cons e l ih =>
    intro S
    exact (h S e).trans (ih (step S e))

lemma foldl_bound (step : Finset α → β → Finset α) (U : Finset α) :
    ∀ (l : List β), (∀ S e, e ∈ l → S ⊆ U → step S e ⊆ U) →
      ∀ S, S ⊆ U → l.foldl step S ⊆ U := by
  intro l
  induction l with
  | nil => intro _ S hS; exact hS
  | cons e l ih =>
    intro h S hS
    exact ih (fun S2 e2 he2 => h S2 e2 (List.mem_cons_of_mem _ he2)) _
      (h S e (List.mem_cons_self _ _) hS)

lemma foldl_closed (step : Finset α → β → Finset α) (T : Set α) :
    ∀ (l : List β), (∀ (S : Finset α) (e : β), e ∈ l → ↑S ⊆ T → ↑(step S e) ⊆ T) →
      ∀ S : Finset α, ↑S ⊆ T → ↑(l.foldl step S) ⊆ T := by
  intro l
  induction l with
  | nil => intro _ S hS; exact hS
  | cons e l ih =>
    intro h S hS
    exact ih (fun S2 e2 he2 => h S2 e2 (List.mem_cons_of_mem _ he2)) _
      (h S e (List.mem_cons_self _ _) hS)

lemma subset_foldl_of_mem (step : Finset α → β → Finset α)
    (hinfl : ∀ S e, S ⊆ step S e) {e : β} {X : Finset α} :
    ∀ (l : List β), e ∈ l →
      ∀ S, (∀ S2, S ⊆ S2 → X ⊆ step S2 e) → X ⊆ l.foldl step S := by
  intro l
  induction l with
  | nil => intro he; simp at he
  | cons a l ih =>
    intro he S hhit
    rcases List.mem_cons.mp he with he | he
    · rw [← he]
      exact (hhit S subset_rfl).trans (foldl_infl step hinfl l (step S e))
    · exact ih he (step S a)
        (fun S2 hS2 => hhit S2 ((hinfl S a).trans hS2))

end IterFix

namespace PG

/-- The inner loop of one `nullables` pass, for one map entry: for each
production of the entry's nonterminal, if every term is already in the
(current, in-place updated) result set, insert the nonterminal. -/
def nullEntryPass (S : Finset String) (e : String × List ProductionRule) :
    Finset String :=
  e.2.foldl
    (fun S prod =>
      if prod.terms.all (fun term => decide (term ∈ S)) then insert e.1 S else S) S

/-- One full pass of the `do … while (changed)` loop of `nullables`: visit
every grammar entry in order, threading the in-place updated result set. -/
def nullPass (g : Grammar) (S : Finset String) : Finset String :=
  g.grammar.foldl nullEntryPass S

/-- The key set of the grammar map: all nonterminals. -/
def keysOf (g : Grammar) : Finset String :=
  (g.grammar.map Prod.fst).toFinset

/-- `nullables` from `ParserGenerator.cpp`: iterate the pass until nothing
changes.  Only grammar keys are ever inserted, so `|keys| + 1` passes are
enough for the chain to stabilise (`IterFix.iterate_fixed`), making the
fuel-bounded iteration extensionally the C++ fixed-point loop. -/
def nullables (g : Grammar) : Finset String :=
  (nullPass g)^[(keysOf g).card + 1] ∅

/-- All productions of the grammar, as (LHS, term list) pairs. -/
def productionsOf (g : Grammar) : List (String × List String) :=
  g.grammar.flatMap (fun e => e.2.map (fun r => (e.1, r.terms)))

lemma nullEntryPass_infl (S : Finset String) (e : String × List ProductionRule) :
    S ⊆ nullEntryPass S e := by
  unfold nullEntryPass
  apply IterFix.foldl_infl
  intro S2 prod
  by_cases hc : prod.terms.all (fun term => decide (term ∈ S2)) = true
  · rw [if_pos hc]
    exact Finset.subset_insert _ _
  · rw [if_neg hc]

lemma nullPass_infl (g : Grammar) (S : Finset String) : S ⊆ nullPass g S :=
  IterFix.foldl_infl nullEntryPass nullEntryPass_infl g.grammar S

lemma nullPass_bound (g : Grammar) (S : Finset String) (hS : S ⊆ keysOf g) :
    nullPass g S ⊆ keysOf g := by
  unfold nullPass
  refine IterFix.foldl_bound nullEntryPass (keysOf g) g.grammar ?_ S hS
  intro S2 e he hS2
  unfold nullEntryPass
  refine IterFix.foldl_bound _ (keysOf g) e.2 ?_ S2 hS2
  intro S3 prod _ hS3
  by_cases hc : prod.terms.all (fun term => decide (term ∈ S3)) = true
  · rw [if_pos hc]
    refine Finset.insert_subset ?_ hS3
    unfold keysOf
    rw [List.mem_toFinset]
    exact List.mem_map.mpr ⟨e, he, rfl⟩
  · rw [if_neg hc]
    exact hS3

/-- A set `T` is closed under the nullability rule: whenever some production
of `N` has every term in `T`, `N` is in `T`. -/
def nullClosed (g : Grammar) (T : Set String) : Prop :=
  ∀ N terms, (N, terms) ∈ productionsOf g → (∀ t ∈ terms, t ∈ T) → N ∈ T

lemma nullPass_closed (g : Grammar) (T : Set String) (hT : nullClosed g T)
    (S : Finset String) (hS : ↑S ⊆ T) : ↑(nullPass g S) ⊆ T := by
  unfold nullPass
  refine IterFix.foldl_closed nullEntryPass T g.grammar ?_ S hS
  intro S2 e he hS2
  unfold nullEntryPass
  refine IterFix.foldl_closed _ T e.2 ?_ S2 hS2
  intro S3 prod hprod hS3
  by_cases hc : prod.terms.all (fun term => decide (term ∈ S3)) = true
  · rw [if_pos hc]
    rw [Finset.coe_insert]
    refine Set.insert_subset ?_ hS3
    refine hT e.1 prod.terms ?_ ?_
    · unfold productionsOf
      rw [List.mem_flatMap]
      exact ⟨e, he, List.mem_map.mpr ⟨prod, hprod, rfl⟩⟩
    · intro t ht
      rw [List.all_eq_true] at hc
      exact hS3 (by exact_mod_cast decide_eq_true_eq.mp (hc t ht))
  · rw [if_neg hc]
    exact hS3

lemma mem_nullPass_of_rule (g : Grammar) (S : Finset String)
    (N : String) (terms : List String)
    (hprod : (N, terms) ∈ productionsOf g) (hterms : ∀ t ∈ terms, t ∈ S) :
    N ∈ nullPass g S := by
  unfold productionsOf at hprod
  rw [List.mem_flatMap] at hprod
  obtain ⟨e, he, hin⟩ := hprod
  rw [List.mem_map] at hin
  obtain ⟨r, hr, hpair⟩ := hin
  have heN : e.1 = N := congrArg Prod.fst hpair
  have hterms2 : r.terms = terms := congrArg Prod.snd hpair
  unfold nullPass
  have hX : ({N} : Finset String) ⊆ _ :=
    IterFix.subset_foldl_of_mem nullEntryPass nullEntryPass_infl g.grammar he S ?_
  · exact hX (Finset.mem_singleton_self N)
  · intro S2 hS2
    unfold nullEntryPass
    refine IterFix.subset_foldl_of_mem _ ?_ e.2 hr S2 ?_
    · intro S3 prod
      by_cases hc : prod.terms.all (fun term => decide (term ∈ S3)) = true
      · rw [if_pos hc]
        exact Finset.subset_insert _ _
      · rw [if_neg hc]
    · intro S3 hS3
      have hc : r.terms.all (fun term => decide (term ∈ S3)) = true := by
        rw [List.all_eq_true]
        intro t ht
        rw [decide_eq_true_eq]
        rw [hterms2] at ht
        exact hS3 (hS2 (hterms t ht))
      rw [if_pos hc, heN]
      intro x hx
      rw [Finset.mem_singleton.mp hx]
      exact Finset.mem_insert_self N S3

lemma nullables_fixed (g : Grammar) : nullPass g (nullables g) = nullables g :=
  IterFix.iterate_fixed (nullPass g) (keysOf g) (nullPass_infl g) (nullPass_bound g)

lemma nullables_subset_keys (g : Grammar) : nullables g ⊆ keysOf g :=
  IterFix.iterate_subset_bound (nullPass g) (keysOf g) (nullPass_bound g) _

lemma nullables_le_closed (g : Grammar) (T : Set String) (hT : nullClosed g T) :
    ↑(nullables g) ⊆ T :=
  IterFix.iterate_le_closed (nullPass g) T (nullPass_closed g T hT) _

lemma nullClosed_nullables (g : Grammar) : nullClosed g ↑(nullables g) := by
  intro N terms hprod hterms
  have : N ∈ nullPass g (nullables g) :=
    mem_nullPass_of_rule g (nullables g) N terms hprod
      (fun t ht => by exact_mod_cast hterms t ht)
  rw [nullables_fixed g] at this
  exact_mod_cast this

lemma isNonterminal_iff_mem_keys (g : Grammar) (t : String) :
    isNonterminal g t = true ↔ t ∈ keysOf g := by
  unfold isNonterminal keysOf
  rw [List.any_eq_true, List.mem_toFinset]
  constructor
  · rintro ⟨e, he, heq⟩
    rw [decide_eq_true_eq] at heq
    exact List.mem_map.mpr ⟨e, he, heq⟩
  · intro h
    rcases List.mem_map.mp h with ⟨e, he, heq⟩
    exact ⟨e, he, decide_eq_true_eq.mpr heq⟩

end PG

/-- C4: `nullables g` is exactly the least set `S` with
`N ∈ S ↔ some production N → α₁…αₖ of g has every αᵢ ∈ S` (vacuously for
`k = 0`): it satisfies the fixed-point equivalence, it is contained in every
set closed under the rule, terminals are never in it, and a nonterminal whose
every production contains a terminal is not in it. -/
theorem nullables_lfp (g : PG.Grammar) :
    (∀ N, N ∈ PG.nullables g ↔
        ∃ terms, (N, terms) ∈ PG.productionsOf g ∧ ∀ t ∈ terms, t ∈ PG.nullables g)
  ∧ (∀ T : Set String,
        (∀ N terms, (N, terms) ∈ PG.productionsOf g → (∀ t ∈ terms, t ∈ T) → N ∈ T) →
        ∀ N ∈ PG.nullables g, N ∈ T)
  ∧ (∀ t, PG.isNonterminal g t = false → t ∉ PG.nullables g)
  ∧ (∀ N, (∀ terms, (N, terms) ∈ PG.productionsOf g →
        ∃ t ∈ terms, PG.isNonterminal g t = false) → N ∉ PG.nullables g) := by
  have hkey : ∀ t, PG.isNonterminal g t = false → t ∉ PG.nullables g := by
    intro t ht hmem
    have : PG.isNonterminal g t = true :=
      (PG.isNonterminal_iff_mem_keys g t).mpr (PG.nullables_subset_keys g hmem)
    rw [ht] at this
    exact Bool.noConfusion this
  have hiff : ∀ N, N ∈ PG.nullables g ↔
      ∃ terms, (N, terms) ∈ PG.productionsOf g ∧ ∀ t ∈ terms, t ∈ PG.nullables g := by
    intro N
    constructor
    · intro hN
      have hT : PG.nullClosed g
          {x | ∃ terms, (x, terms) ∈ PG.productionsOf g
            ∧ ∀ t ∈ terms, t ∈ PG.nullables g} := by
        intro M terms hprod hterms
        refine ⟨terms, hprod, fun t ht => ?_⟩
        obtain ⟨terms2, hprod2, hterms2⟩ := hterms t ht
        exact PG.nullClosed_nullables g t terms2 hprod2
          (fun u hu => by exact_mod_cast hterms2 u hu)
      exact PG.nullables_le_closed g _ hT hN
    · rintro ⟨terms, hprod, hterms⟩
      exact PG.nullClosed_nullables g N terms hprod
        (fun t ht => by exact_mod_cast hterms t ht)
  refine ⟨hiff, ?_, hkey, ?_⟩
  · intro T hT N hN
    exact PG.nullables_le_closed g T hT hN
  · intro N hall hN
    obtain ⟨terms, hprod, hterms⟩ := (hiff N).mp hN
    obtain ⟨t, ht, htterm⟩ := hall terms hprod
    exact hkey t htterm (hterms t ht)

namespace PG

/-- `addAll(src-row, dst-row)` on the pair-set representation of a
`map<string, set<string>>`: copy every second component filed under `src`
to pairs filed under `dst`. -/
def copyRow (S : Finset (String × String)) (src dst : String) :
    Finset (String × String) :=
  (S.filter (fun q => q.1 = src)).image (fun q => (dst, q.2))

/-- The per-production scan of `firstSets` in `ParserGenerator.cpp`: walk the
terms; a terminal is added to FIRST(N) and stops the scan; a nonterminal
contributes its (current) FIRST row and stops unless it is nullable. -/
def firstScan (g : Grammar) (nullable : Finset String) (N : String) :
    List String → Finset (String × String) → Finset (String × String)
  | [], S => S
  | t :: rest, S =>
    if isNonterminal g t then
      if t ∈ nullable then firstScan g nullable N rest (S ∪ copyRow S t N)
      else S ∪ copyRow S t N
    else insert (N, t) S

/-- One pass of the `firstSets` fixed-point loop, over all entries and
productions, threading the in-place updated pair set. -/
def firstPass (g : Grammar) (nullable : Finset String)
    (S : Finset (String × String)) : Finset (String × String) :=
  g.grammar.foldl
    (fun S e => e.2.foldl (fun S prod => firstScan g nullable e.1 prod.terms S) S) S

/-- Every term string that occurs in some production RHS. -/
def termsOf (g : Grammar) : Finset String :=
  ((productionsOf g).flatMap Prod.snd).toFinset

/-- `firstSets` from `ParserGenerator.cpp` as a pair set: iterate the pass to
stability; only pairs in `keys × terms` are ever added, so
`|keys × terms| + 1` passes suffice. -/
def firstSets (g : Grammar) : Finset (String × String) :=
  (firstPass g (nullables g))^[((keysOf g) ×ˢ termsOf g).card + 1] ∅

/-- The inner scan of `followSets` in `ParserGenerator.cpp`, for the
occurrence of nonterminal `A` inside a production of `lhs`, over the suffix
after `A`: a terminal is added to FOLLOW(A) and stops; a nonterminal `B`
contributes FIRST(B) and stops iff `B` is not nullable; reaching the end
without stopping copies the current FOLLOW(lhs) row into FOLLOW(A). -/
def followScan (g : Grammar) (firsts : Finset (String × String))
    (nullable : Finset String) (lhs A : String) :
    List String → Finset (String × String) → Finset (String × String)
  | [], S => S ∪ copyRow S lhs A
  | t :: rest, S =>
    if isNonterminal g t then
      if t ∈ nullable then followScan g firsts nullable lhs A rest (S ∪ copyRow firsts t A)
      else S ∪ copyRow firsts t A
    else insert (A, t) S

/-- The position loop of `followSets`: at every position holding a
nonterminal, run the scan over the suffix after it. -/
def followTerms (g : Grammar) (firsts : Finset (String × String))
    (nullable : Finset String) (lhs : String) :
    List String → Finset (String × String) → Finset (String × String)
  | [], S => S
  | t :: rest, S =>
    followTerms g firsts nullable lhs rest
      (if isNonterminal g t then followScan g firsts nullable lhs t rest S else S)

/-- One pass of the `followSets` fixed-point loop: rule 1 puts `SCAN_EOF`
into FOLLOW(`_parserInternalStart`); then every entry and production is
visited in order, threading the in-place updated pair set. -/
def followPass (g : Grammar) (firsts : Finset (String × String))
    (nullable : Finset String) (S : Finset (String × String)) :
    Finset (String × String) :=
  g.grammar.foldl
    (fun S e => e.2.foldl (fun S prod => followTerms g firsts nullable e.1 prod.terms S) S)
    (insert (kStartSymbol, "SCAN_EOF") S)

/-- Every string that can index or populate a FOLLOW row: RHS terms, grammar
keys, the synthetic start symbol, and the EOF marker. -/
def symsOf (g : Grammar) : Finset String :=
  termsOf g ∪ keysOf g ∪ {kStartSymbol, "SCAN_EOF"}

/-- `followSets` from `ParserGenerator.cpp` as a pair set: iterate the pass
(fed the code's own `firstSets` and `nullables`) to stability; all pairs stay
inside `symsOf × symsOf`, so `|symsOf × symsOf| + 1` passes suffice. -/
def followSets (g : Grammar) : Finset (String × String) :=
  (followPass g (firstSets g) (nullables g))^[((symsOf g) ×ˢ symsOf g).card + 1] ∅

/-- The spec's scanning procedure for one occurrence, as a set of contributed
FOLLOW pairs over an ambient FOLLOW relation `R`: scanning the suffix after
the occurrence of `A`, a terminal contributes itself and stops; a nonterminal
`B` contributes `FIRST(B)` and stops iff `B` is not nullable; reaching the
end contributes the `R`-row of the production's LHS. -/
def specFollowScan (g : Grammar) (firsts : Finset (String × String))
    (nullable : Finset String) (lhs A : String) (R : Set (String × String)) :
    List String → Set (String × String)
  | [] => {p | p.1 = A ∧ (lhs, p.2) ∈ R}
  | t :: rest =>
    if isNonterminal g t then
      {p | p.1 = A ∧ (t, p.2) ∈ firsts} ∪
        (if t ∈ nullable then specFollowScan g firsts nullable lhs A R rest else ∅)
    else {(A, t)}

/-- The spec's one-step FOLLOW operator: rule 1 (`SCAN_EOF` follows the
synthetic start symbol) plus the contribution of every occurrence of a
nonterminal in every production, with `FIRST` and nullability taken from the
generator's own `firstSets` and `nullables`. -/
def specFollowStep (g : Grammar) (R : Set (String × String)) :
    Set (String × String) :=
  {(kStartSymbol, "SCAN_EOF")} ∪
    {p | ∃ lhs terms pre A post, (lhs, terms) ∈ productionsOf g
        ∧ terms = pre ++ A :: post ∧ isNonterminal g A = true
        ∧ p ∈ specFollowScan g (firstSets g) (nullables g) lhs A R post}

end PG

namespace PG

lemma mem_copyRow (S : Finset (String × String)) (src dst : String)
    (p : String × String) :
    p ∈ copyRow S src dst ↔ p.1 = dst ∧ (src, p.2) ∈ S := by
  unfold copyRow
  rw [Finset.mem_image]
  constructor
  · rintro ⟨q, hq, hpq⟩
    rw [Finset.mem_filter] at hq
    obtain ⟨hqS, hq1⟩ := hq
    refine ⟨by rw [← hpq], ?_⟩
    have h2 : p.2 = q.2 := by rw [← hpq]
    rw [h2, ← hq1]
    exact hqS
  · rintro ⟨h1, h2⟩
    refine ⟨(src, p.2), Finset.mem_filter.mpr ⟨h2, rfl⟩, ?_⟩
    rw [← h1]

lemma firstScan_infl (g : Grammar) (nullable : Finset String) (N : String) :
    ∀ rest S, S ⊆ firstScan g nullable N rest S := by
  intro rest
  induction rest with
  | nil => intro S; exact subset_rfl
  | cons t rest ih =>
    intro S
    unfold firstScan
    by_cases hNT : isNonterminal g t = true
    · rw [if_pos hNT]
      by_cases hnul : t ∈ nullable
      · rw [if_pos hnul]
        exact Finset.subset_union_left.trans (ih _)
      · rw [if_neg hnul]
        exact Finset.subset_union_left
    · rw [if_neg hNT]
      exact Finset.subset_insert _ _

lemma firstScan_bound (g : Grammar) (nullable : Finset String) (N : String)
    (hN : N ∈ keysOf g) :
    ∀ rest, (∀ t ∈ rest, t ∈ termsOf g) →
      ∀ S, S ⊆ (keysOf g) ×ˢ termsOf g →
        firstScan g nullable N rest S ⊆ (keysOf g) ×ˢ termsOf g := by
  intro rest
  induction rest with
  | nil => intro _ S hS; exact hS
  | cons t rest ih =>
    intro hterms S hS
    have ht : t ∈ termsOf g := hterms t (List.mem_cons_self _ _)
    have hrest : ∀ u ∈ rest, u ∈ termsOf g :=
      fun u hu => hterms u (List.mem_cons_of_mem _ hu)
    have hcopy : S ∪ copyRow S t N ⊆ (keysOf g) ×ˢ termsOf g := by
      refine Finset.union_subset hS ?_
      intro p hp
      obtain ⟨h1, h2⟩ := (mem_copyRow S t N p).mp hp
      have := hS h2
      rw [Finset.mem_product] at this ⊢
      exact ⟨by rw [h1]; exact hN, this.2⟩
    unfold firstScan
    by_cases hNT : isNonterminal g t = true
    · rw [if_pos hNT]
      by_cases hnul : t ∈ nullable
      · rw [if_pos hnul]
        exact ih hrest _ hcopy
      · rw [if_neg hnul]
        exact hcopy
    · rw [if_neg hNT]
      refine Finset.insert_subset ?_ hS
      rw [Finset.mem_product]
      exact ⟨hN, ht⟩

lemma mem_termsOf (g : Grammar) (e : String × List ProductionRule)
    (he : e ∈ g.grammar) (r : ProductionRule) (hr : r ∈ e.2)
    (t : String) (ht : t ∈ r.terms) : t ∈ termsOf g := by
  unfold termsOf
  rw [List.mem_toFinset, List.mem_flatMap]
  refine ⟨(e.1, r.terms), ?_, ht⟩
  unfold productionsOf
  rw [List.mem_flatMap]
  exact ⟨e, he, List.mem_map.mpr ⟨r, hr, rfl⟩⟩

lemma mem_keysOf (g : Grammar) (e : String × List ProductionRule)
    (he : e ∈ g.grammar) : e.1 ∈ keysOf g := by
  unfold keysOf
  rw [List.mem_toFinset]
  exact List.mem_map.mpr ⟨e, he, rfl⟩

lemma firstPass_bound (g : Grammar) (nullable : Finset String)
    (S : Finset (String × String)) (hS : S ⊆ (keysOf g) ×ˢ termsOf g) :
    firstPass g nullable S ⊆ (keysOf g) ×ˢ termsOf g := by
  unfold firstPass
  refine IterFix.foldl_bound _ _ g.grammar ?_ S hS
  intro S2 e he hS2
  refine IterFix.foldl_bound _ _ e.2 ?_ S2 hS2
  intro S3 prod hprod hS3
  exact firstScan_bound g nullable e.1 (mem_keysOf g e he) prod.terms
    (fun t ht => mem_termsOf g e he prod hprod t ht) S3 hS3

lemma firstSets_bound (g : Grammar) :
    firstSets g ⊆ (keysOf g) ×ˢ termsOf g :=
  IterFix.iterate_subset_bound _ _ (firstPass_bound g (nullables g)) _

end PG

namespace PG

lemma followScan_infl (g : Grammar) (firsts : Finset (String × String))
    (nullable : Finset String) (lhs A : String) :
    ∀ rest S, S ⊆ followScan g firsts nullable lhs A rest S := by
  intro rest
  induction rest with
  | nil =>
    intro S
    unfold followScan
    exact Finset.subset_union_left
  | cons t rest ih =>
    intro S
    unfold followScan
    by_cases hNT : isNonterminal g t = true
    · rw [if_pos hNT]
      by_cases hnul : t ∈ nullable
      · rw [if_pos hnul]
        exact Finset.subset_union_left.trans (ih _)
      · rw [if_neg hnul]
        exact Finset.subset_union_left
    · rw [if_neg hNT]
      exact Finset.subset_insert _ _

lemma followTerms_infl (g : Grammar) (firsts : Finset (String × String))
    (nullable : Finset String) (lhs : String) :
    ∀ terms S, S ⊆ followTerms g firsts nullable lhs terms S := by
  intro terms
  induction terms with
  | nil => intro S; exact subset_rfl
  | cons t rest ih =>
    intro S
    unfold followTerms
    by_cases hNT : isNonterminal g t = true
    · rw [if_pos hNT]
      exact (followScan_infl g firsts nullable lhs t rest S).trans (ih _)
    · rw [if_neg hNT]
      exact ih S

lemma followPass_infl (g : Grammar) (firsts : Finset (String × String))
    (nullable : Finset String) (S : Finset (String × String)) :
    S ⊆ followPass g firsts nullable S := by
  unfold followPass
  refine (Finset.subset_insert (kStartSymbol, "SCAN_EOF") S).trans ?_
  refine IterFix.foldl_infl _ ?_ g.grammar _
  intro S2 e
  refine IterFix.foldl_infl _ ?_ e.2 S2
  intro S3 prod
  exact followTerms_infl g firsts nullable e.1 prod.terms S3

lemma followScan_bound (g : Grammar) (firsts : Finset (String × String))
    (hfirsts : firsts ⊆ (keysOf g) ×ˢ termsOf g)
    (nullable : Finset String) (lhs A : String) (hA : A ∈ symsOf g) :
    ∀ rest, (∀ t ∈ rest, t ∈ termsOf g) →
      ∀ S, S ⊆ (symsOf g) ×ˢ symsOf g →
        followScan g firsts nullable lhs A rest S ⊆ (symsOf g) ×ˢ symsOf g := by
  intro rest
  induction rest with
  | nil =>
    intro _ S hS
    unfold followScan
    refine Finset.union_subset hS ?_
    intro p hp
    obtain ⟨h1, h2⟩ := (mem_copyRow S lhs A p).mp hp
    have := hS h2
    rw [Finset.mem_product] at this ⊢
    exact ⟨by rw [h1]; exact hA, this.2⟩
  | cons t rest ih =>
    intro hterms S hS
    have ht : t ∈ termsOf g := hterms t (List.mem_cons_self _ _)
    have hrest : ∀ u ∈ rest, u ∈ termsOf g :=
      fun u hu => hterms u (List.mem_cons_of_mem _ hu)
    have htsym : t ∈ symsOf g := by
      unfold symsOf
      rw [Finset.mem_union, Finset.mem_union]
      exact Or.inl (Or.inl ht)
    have hcopy : S ∪ copyRow firsts t A ⊆ (symsOf g) ×ˢ symsOf g := by
      refine Finset.union_subset hS ?_
      intro p hp
      obtain ⟨h1, h2⟩ := (mem_copyRow firsts t A p).mp hp
      have := hfirsts h2
      rw [Finset.mem_product] at this ⊢
      refine ⟨by rw [h1]; exact hA, ?_⟩
      unfold symsOf
      rw [Finset.mem_union, Finset.mem_union]
      exact Or.inl (Or.inl this.2)
    unfold followScan
    by_cases hNT : isNonterminal g t = true
    · rw [if_pos hNT]
      by_cases hnul : t ∈ nullable
      · rw [if_pos hnul]
        exact ih hrest _ hcopy
      · rw [if_neg hnul]
        exact hcopy
    · rw [if_neg hNT]
      refine Finset.insert_subset ?_ hS
      rw [Finset.mem_product]
      exact ⟨hA, htsym⟩

lemma followTerms_bound (g : Grammar) (firsts : Finset (String × String))
    (hfirsts : firsts ⊆ (keysOf g) ×ˢ termsOf g)
    (nullable : Finset String) (lhs : String) :
    ∀ terms, (∀ t ∈ terms, t ∈ termsOf g) →
      ∀ S, S ⊆ (symsOf g) ×ˢ symsOf g →
        followTerms g firsts nullable lhs terms S ⊆ (symsOf g) ×ˢ symsOf g := by
  intro terms
  induction terms with
  | nil => intro _ S hS; exact hS
  | cons t rest ih =>
    intro hterms S hS
    have ht : t ∈ termsOf g := hterms t (List.mem_cons_self _ _)
    have htsym : t ∈ symsOf g := by
      unfold symsOf
      rw [Finset.mem_union, Finset.mem_union]
      exact Or.inl (Or.inl ht)
    have hrest : ∀ u ∈ rest, u ∈ termsOf g :=
      fun u hu => hterms u (List.mem_cons_of_mem _ hu)
    unfold followTerms
    by_cases hNT : isNonterminal g t = true
    · rw [if_pos hNT]
      exact ih hrest _ (followScan_bound g firsts hfirsts nullable lhs t htsym rest hrest S hS)
    · rw [if_neg hNT]
      exact ih hrest S hS

lemma followPass_bound (g : Grammar) (firsts : Finset (String × String))
    (hfirsts : firsts ⊆ (keysOf g) ×ˢ termsOf g) (nullable : Finset String)
    (S : Finset (String × String)) (hS : S ⊆ (symsOf g) ×ˢ symsOf g) :
    followPass g firsts nullable S ⊆ (symsOf g) ×ˢ symsOf g := by
  unfold followPass
  have hstart : insert (kStartSymbol, "SCAN_EOF") S ⊆ (symsOf g) ×ˢ symsOf g := by
    refine Finset.insert_subset ?_ hS
    rw [Finset.mem_product]
    constructor
    · unfold symsOf
      rw [Finset.mem_union]
      exact Or.inr (by simp)
    · unfold symsOf
      rw [Finset.mem_union]
      exact Or.inr (by simp)
  refine IterFix.foldl_bound _ _ g.grammar ?_ _ hstart
  intro S2 e he hS2
  refine IterFix.foldl_bound _ _ e.2 ?_ S2 hS2
  intro S3 prod hprod hS3
  exact followTerms_bound g firsts hfirsts nullable e.1 prod.terms
    (fun t ht => mem_termsOf g e he prod hprod t ht) S3 hS3

lemma followSets_fixed (g : Grammar) :
    followPass g (firstSets g) (nullables g) (followSets g) = followSets g :=
  IterFix.iterate_fixed _ ((symsOf g) ×ˢ symsOf g)
    (followPass_infl g (firstSets g) (nullables g))
    (followPass_bound g (firstSets g) (firstSets_bound g) (nullables g))

end PG

namespace PG

lemma followScan_closed (g : Grammar) (firsts : Finset (String × String))
    (nullable : Finset String) (lhs A : String) (T : Set (String × String)) :
    ∀ rest (S : Finset (String × String)), ↑S ⊆ T →
      specFollowScan g firsts nullable lhs A T rest ⊆ T →
      ↑(followScan g firsts nullable lhs A rest S) ⊆ T := by
  intro rest
  induction rest with
  | nil =>
    intro S hS hspec
    unfold followScan
    rw [Finset.coe_union]
    refine Set.union_subset hS ?_
    intro p hp
    rw [Finset.mem_coe, mem_copyRow] at hp
    exact hspec ⟨hp.1, hS hp.2⟩
  | cons t rest ih =>
    intro S hS hspec
    unfold followScan
    unfold specFollowScan at hspec
    by_cases hNT : isNonterminal g t = true
    · rw [if_pos hNT]
      rw [if_pos hNT] at hspec
      have hfirstsPart : {p : String × String | p.1 = A ∧ (t, p.2) ∈ firsts} ⊆ T :=
        (Set.subset_union_left).trans hspec
      have hS' : ↑(S ∪ copyRow firsts t A) ⊆ T := by
        rw [Finset.coe_union]
        refine Set.union_subset hS ?_
        intro p hp
        rw [Finset.mem_coe, mem_copyRow] at hp
        exact hfirstsPart ⟨hp.1, hp.2⟩
      by_cases hnul : t ∈ nullable
      · rw [if_pos hnul]
        rw [if_pos hnul] at hspec
        refine ih _ hS' ?_
        exact (Set.subset_union_right).trans hspec
      · rw [if_neg hnul]
        exact hS'
    · rw [if_neg hNT]
      rw [if_neg hNT] at hspec
      rw [Finset.coe_insert]
      exact Set.insert_subset (hspec rfl) hS

lemma followTerms_closed (g : Grammar) (firsts : Finset (String × String))
    (nullable : Finset String) (lhs : String) (T : Set (String × String)) :
    ∀ terms (S : Finset (String × String)), ↑S ⊆ T →
      (∀ pre A post, terms = pre ++ A :: post → isNonterminal g A = true →
        specFollowScan g firsts nullable lhs A T post ⊆ T) →
      ↑(followTerms g firsts nullable lhs terms S) ⊆ T := by
  intro terms
  induction terms with
  | nil => intro S hS _; exact hS
  | cons t rest ih =>
    intro S hS hocc
    unfold followTerms
    have hS' : ↑(if isNonterminal g t = true
        then followScan g firsts nullable lhs t rest S else S) ⊆ T := by
      by_cases hNT : isNonterminal g t = true
      · rw [if_pos hNT]
        exact followScan_closed g firsts nullable lhs t T rest S hS
          (hocc [] t rest rfl hNT)
      · rw [if_neg hNT]
        exact hS
    exact ih _ hS'
      (fun pre A post heq hNT => hocc (t :: pre) A post (by rw [heq]; rfl) hNT)

lemma followPass_closed (g : Grammar) (T : Set (String × String))
    (hT : specFollowStep g T ⊆ T)
    (S : Finset (String × String)) (hS : ↑S ⊆ T) :
    ↑(followPass g (firstSets g) (nullables g) S) ⊆ T := by
  unfold followPass
  have hstart : ↑(insert (kStartSymbol, "SCAN_EOF") S) ⊆ T := by
    rw [Finset.coe_insert]
    refine Set.insert_subset ?_ hS
    exact hT (Or.inl rfl)
  refine IterFix.foldl_closed _ T g.grammar ?_ _ hstart
  intro S2 e he hS2
  refine IterFix.foldl_closed _ T e.2 ?_ S2 hS2
  intro S3 prod hprod hS3
  refine followTerms_closed g (firstSets g) (nullables g) e.1 T prod.terms S3 hS3 ?_
  intro pre A post heq hNT
  intro p hp
  refine hT (Or.inr ?_)
  refine ⟨e.1, prod.terms, pre, A, post, ?_, heq, hNT, hp⟩
  unfold productionsOf
  rw [List.mem_flatMap]
  exact ⟨e, he, List.mem_map.mpr ⟨prod, hprod, rfl⟩⟩

lemma followSets_le_closed (g : Grammar) (T : Set (String × String))
    (hT : specFollowStep g T ⊆ T) : ↑(followSets g) ⊆ T :=
  IterFix.iterate_le_closed _ T (followPass_closed g T hT) _

end PG

namespace PG

lemma mem_followScan_of_spec (g : Grammar) (firsts : Finset (String × String))
    (nullable : Finset String) (lhs A : String) (R : Finset (String × String)) :
    ∀ rest p, p ∈ specFollowScan g firsts nullable lhs A (↑R) rest →
      ∀ S, R ⊆ S → p ∈ followScan g firsts nullable lhs A rest S := by
  intro rest
  induction rest with
  | nil =>
    intro p hp S hRS
    unfold specFollowScan at hp
    unfold followScan
    rw [Finset.mem_union]
    refine Or.inr ?_
    rw [mem_copyRow]
    exact ⟨hp.1, hRS (by exact_mod_cast hp.2)⟩
  | cons t rest ih =>
    intro p hp S hRS
    unfold specFollowScan at hp
    unfold followScan
    by_cases hNT : isNonterminal g t = true
    · rw [if_pos hNT] at hp ⊢
      rcases hp with hp | hp
      · have hmem : p ∈ S ∪ copyRow firsts t A := by
          rw [Finset.mem_union]
          refine Or.inr ?_
          rw [mem_copyRow]
          exact ⟨hp.1, hp.2⟩
        by_cases hnul : t ∈ nullable
        · rw [if_pos hnul]
          exact followScan_infl g firsts nullable lhs A rest _ hmem
        · rw [if_neg hnul]
          exact hmem
      · by_cases hnul : t ∈ nullable
        · rw [if_pos hnul] at hp ⊢
          exact ih p hp _ (hRS.trans Finset.subset_union_left)
        · rw [if_neg hnul] at hp
          exact absurd hp (Set.not_mem_empty p)
    · rw [if_neg hNT] at hp ⊢
      rw [Set.mem_singleton_iff] at hp
      rw [hp]
      exact Finset.mem_insert_self _ _

lemma mem_followTerms_of_spec (g : Grammar) (firsts : Finset (String × String))
    (nullable : Finset String) (lhs A : String) (R : Finset (String × String))
    (post : List String) (hNT : isNonterminal g A = true) :
    ∀ pre p, p ∈ specFollowScan g firsts nullable lhs A (↑R) post →
      ∀ S, R ⊆ S →
        p ∈ followTerms g firsts nullable lhs (pre ++ A :: post) S := by
  intro pre
  induction pre with
  | nil =>
    intro p hp S hRS
    rw [List.nil_append]
    unfold followTerms
    rw [if_pos hNT]
    exact followTerms_infl g firsts nullable lhs post _
      (mem_followScan_of_spec g firsts nullable lhs A R post p hp S hRS)
  | cons t pre ih =>
    intro p hp S hRS
    rw [List.cons_append]
    unfold followTerms
    refine ih p hp _ ?_
    by_cases hNT2 : isNonterminal g t = true
    · rw [if_pos hNT2]
      exact hRS.trans (followScan_infl g firsts nullable lhs t _ S)
    · rw [if_neg hNT2]
      exact hRS

lemma mem_followPass_of_spec (g : Grammar) (R : Finset (String × String))
    (p : String × String) (hp : p ∈ specFollowStep g ↑R) :
    p ∈ followPass g (firstSets g) (nullables g) R := by
  unfold followPass
  rcases hp with hp | hp
  · rw [Set.mem_singleton_iff] at hp
    rw [hp]
    refine IterFix.foldl_infl _ ?_ g.grammar _ (Finset.mem_insert_self _ _)
    intro S2 e
    refine IterFix.foldl_infl _ ?_ e.2 S2
    intro S3 prod
    exact followTerms_infl g (firstSets g) (nullables g) e.1 prod.terms S3
  · obtain ⟨lhs, terms, pre, A, post, hprod, heq, hNT, hscan⟩ := hp
    unfold productionsOf at hprod
    rw [List.mem_flatMap] at hprod
    obtain ⟨e, he, hin⟩ := hprod
    rw [List.mem_map] at hin
    obtain ⟨r, hr, hpair⟩ := hin
    have helhs : e.1 = lhs := congrArg Prod.fst hpair
    have hterms : r.terms = terms := congrArg Prod.snd hpair
    refine IterFix.subset_foldl_of_mem
      (fun S e2 => e2.2.foldl
        (fun S prod => followTerms g (firstSets g) (nullables g) e2.1 prod.terms S) S)
      ?_ g.grammar he (insert (kStartSymbol, "SCAN_EOF") R) ?_
      (Finset.mem_singleton_self p)
    · intro S2 e2
      refine IterFix.foldl_infl _ ?_ e2.2 S2
      intro S3 prod
      exact followTerms_infl g (firstSets g) (nullables g) e2.1 prod.terms S3
    · intro S2 hS2
      refine IterFix.subset_foldl_of_mem
        (fun S prod => followTerms g (firstSets g) (nullables g) e.1 prod.terms S)
        ?_ e.2 hr S2 ?_
      · intro S3 prod
        exact followTerms_infl g (firstSets g) (nullables g) e.1 prod.terms S3
      · intro S3 hS3
        intro x hx
        rw [Finset.mem_singleton.mp hx]
        show p ∈ followTerms g (firstSets g) (nullables g) e.1 r.terms S3
        rw [hterms, heq, helhs]
        refine mem_followTerms_of_spec g (firstSets g) (nullables g) lhs A R post hNT
          pre p hscan S3 ?_
        exact ((Finset.subset_insert _ _).trans hS2).trans hS3

lemma specFollowStep_subset_followSets (g : Grammar) :
    specFollowStep g ↑(followSets g) ⊆ ↑(followSets g) := by
  intro p hp
  have := mem_followPass_of_spec g (followSets g) p hp
  rw [followSets_fixed g] at this
  exact_mod_cast this

lemma specFollowScan_mono (g : Grammar) (firsts : Finset (String × String))
    (nullable : Finset String) (lhs A : String)
    {R1 R2 : Set (String × String)} (h : R1 ⊆ R2) :
    ∀ rest, specFollowScan g firsts nullable lhs A R1 rest
      ⊆ specFollowScan g firsts nullable lhs A R2 rest := by
  intro rest
  induction rest with
  | nil =>
    intro p hp
    exact ⟨hp.1, h hp.2⟩
  | cons t rest ih =>
    unfold specFollowScan
    by_cases hNT : isNonterminal g t = true
    · rw [if_pos hNT, if_pos hNT]
      refine Set.union_subset_union subset_rfl ?_
      by_cases hnul : t ∈ nullable
      · rw [if_pos hnul, if_pos hnul]
        exact ih
      · rw [if_neg hnul]
        exact Set.empty_subset _
    · rw [if_neg hNT, if_neg hNT]

lemma specFollowStep_mono (g : Grammar) {R1 R2 : Set (String × String)}
    (h : R1 ⊆ R2) : specFollowStep g R1 ⊆ specFollowStep g R2 := by
  intro p hp
  rcases hp with hp | hp
  · exact Or.inl hp
  · obtain ⟨lhs, terms, pre, A, post, hprod, heq, hNT, hscan⟩ := hp
    exact Or.inr ⟨lhs, terms, pre, A, post, hprod, heq, hNT,
      specFollowScan_mono g (firstSets g) (nullables g) lhs A h post hscan⟩

end PG

/-- C3: the FOLLOW sets computed by `followSets` are the least fixed point of
the spec's scanning procedure (`PG.specFollowStep`): `SCAN_EOF` is in
FOLLOW(`_parserInternalStart`); for every occurrence of a nonterminal `A` in
a production, scanning the suffix after it adds a terminal and stops,
contributes `FIRST(B)` for a nonterminal `B` and stops iff `B` is not
nullable, and adds FOLLOW(LHS) when the scan reaches the end; the computed
relation equals the operator's value on itself and is contained in every
relation closed under the operator. -/
theorem followSets_lfp (g : PG.Grammar) :
    PG.specFollowStep g ↑(PG.followSets g) = ↑(PG.followSets g)
  ∧ (∀ T : Set (String × String),
      PG.specFollowStep g T ⊆ T → ↑(PG.followSets g) ⊆ T)
  ∧ (PG.kStartSymbol, "SCAN_EOF") ∈ PG.followSets g := by
  have h1 := PG.specFollowStep_subset_followSets g
  have h2 : ∀ T : Set (String × String),
      PG.specFollowStep g T ⊆ T → ↑(PG.followSets g) ⊆ T :=
    fun T hT => PG.followSets_le_closed g T hT
  have h3 : ↑(PG.followSets g) ⊆ PG.specFollowStep g ↑(PG.followSets g) :=
    h2 _ (PG.specFollowStep_mono g h1)
  refine ⟨Set.Subset.antisymm h1 h3, h2, ?_⟩
  have : (PG.kStartSymbol, "SCAN_EOF") ∈ PG.specFollowStep g ↑(PG.followSets g) :=
    Or.inl rfl
  exact_mod_cast h1 this
